import Mathlib

/-!
Shallow embedding of the petgraph core (src/algo.rs, src/visit.rs) and proofs
about its algorithms.

Modelling conventions:
* A concrete directed graph (the `Graph` type instantiating the capability
  traits) is `SGraph`: nodes are the indices `0 .. n-1`, edges a list of
  `(source, target)` pairs.  `NodeIndex` is `Nat`, `to_index` the identity,
  `node_bound = node_count = n`.
* A `FixedBitSet` visit map is a `Finset Nat`; `visit` inserts and reports
  freshness, `is_visited` is membership.
* A Rust `Vec` used as a stack (push/pop at the back) is modelled as a
  `List Nat` whose HEAD is the stack top; `VecDeque` (pop front / push back)
  is a list whose head is the front.
* `while` loops are modelled with an explicit fuel parameter; for each loop a
  measure argument shows the chosen fuel drains the frontier completely, so
  the fueled function agrees with the Rust loop.
-/

namespace Petgraph

/-- Direction of an edge, as in petgraph's EdgeDirection. -/
inductive EdgeDirection where
  | Outgoing : EdgeDirection
  | Incoming : EdgeDirection
deriving DecidableEq

/-- Flip a direction (EdgeDirection::opposite). -/
def EdgeDirection.opposite : EdgeDirection → EdgeDirection
  | .Outgoing => .Incoming
  | .Incoming => .Outgoing

/-- A concrete directed graph: `n` nodes `0..n-1` and a list of directed
edges `(source, target)`.  This instantiates the capability traits that the
generic algorithms of algo.rs require. -/
structure SGraph where
  n : Nat
  edges : List (Nat × Nat)
deriving DecidableEq

namespace SGraph

/-- Well-formed graph: every edge endpoint is a real node. -/
def WF (g : SGraph) : Prop := ∀ e ∈ g.edges, e.1 < g.n ∧ e.2 < g.n

instance (g : SGraph) : Decidable g.WF := by
  unfold WF; infer_instance

/-- node_count of the Graph capability. -/
def node_count (g : SGraph) : Nat := g.n

/-- node_bound of the NodeIndexable capability (for Graph it is node_count). -/
def node_bound (g : SGraph) : Nat := g.n

/-- Directed neighbor enumeration: targets of edges out of `x`, or sources of
edges into `x`. -/
def neighbors_directed (g : SGraph) (x : Nat) : EdgeDirection → List Nat
  | .Outgoing => (g.edges.filter (fun e => e.1 = x)).map (fun e => e.2)
  | .Incoming => (g.edges.filter (fun e => e.2 = x)).map (fun e => e.1)

/-- Neighbor enumeration of a directed graph: the outgoing neighbors. -/
def neighbors (g : SGraph) (x : Nat) : List Nat :=
  g.neighbors_directed x .Outgoing

/-- Nodes with no edge in the given direction (IntoExternals). -/
def externals (g : SGraph) (d : EdgeDirection) : List Nat :=
  (List.range g.n).filter (fun x => (g.neighbors_directed x d).isEmpty)

/-- visit_map: a fresh empty visit map (FixedBitSet::with_capacity). -/
def visit_map (_g : SGraph) : Finset Nat := ∅

/-- reset_map: clear the map in place (Revisitable for Graph). -/
def reset_map (_g : SGraph) (_m : Finset Nat) : Finset Nat := ∅

/-- The graph with every edge reversed (used to give the Reversed adapter
its extensional meaning). -/
def transpose (g : SGraph) : SGraph :=
  ⟨g.n, g.edges.map (fun e => (e.2, e.1))⟩

end SGraph

/-- The Reversed view adapter: a zero-copy wrapper around a graph. -/
structure Reversed where
  graph : SGraph

namespace Reversed

/-- IntoNeighborsDirected for Reversed: delegate with the direction flipped. -/
def neighbors_directed (r : Reversed) (x : Nat) (d : EdgeDirection) : List Nat :=
  r.graph.neighbors_directed x d.opposite

/-- IntoNeighbors for Reversed: the wrapped graph's Incoming neighbors. -/
def neighbors (r : Reversed) (x : Nat) : List Nat :=
  r.graph.neighbors_directed x .Incoming

/-- IntoExternals for Reversed: delegate with the direction flipped. -/
def externals (r : Reversed) (d : EdgeDirection) : List Nat :=
  r.graph.externals d.opposite

/-- Visitable for Reversed: delegate to the wrapped graph. -/
def visit_map (r : Reversed) : Finset Nat :=
  r.graph.visit_map

/-- Revisitable for Reversed: delegate to the wrapped graph. -/
def reset_map (r : Reversed) (m : Finset Nat) : Finset Nat :=
  r.graph.reset_map m

end Reversed

/-! ## Relational vocabulary: adjacency, reachability, cycles -/

/-- One directed edge step. -/
def adj (g : SGraph) (a b : Nat) : Prop := (a, b) ∈ g.edges

instance (g : SGraph) (a b : Nat) : Decidable (adj g a b) := by
  unfold adj; infer_instance

/-- Directed reachability (zero or more edges). -/
def Reach (g : SGraph) (a b : Nat) : Prop := Relation.ReflTransGen (adj g) a b

/-- The graph contains a directed cycle. -/
def CyclicDir (g : SGraph) : Prop := ∃ v, Relation.TransGen (adj g) v v

/-- Undirected adjacency: an edge between the two nodes in either direction. -/
def uadjL (es : List (Nat × Nat)) (a b : Nat) : Prop := (a, b) ∈ es ∨ (b, a) ∈ es

/-- Undirected adjacency of a graph. -/
def uadj (g : SGraph) (a b : Nat) : Prop := uadjL g.edges a b

/-- Undirected reachability. -/
def ReachU (g : SGraph) (a b : Nat) : Prop := Relation.ReflTransGen (uadj g) a b

/-! ## Traversal engines (visit.rs): Dfs, Bfs, Topo -/

/-- One iteration of the neighbor loop in Dfs::next: if the successor is
freshly discovered, mark it and push it on the stack (head = stack top). -/
def visitPush (acc : Finset Nat × List Nat) (x : Nat) : Finset Nat × List Nat :=
  if x ∈ acc.1 then acc else (insert x acc.1, x :: acc.2)

/-- One iteration of the neighbor loop in Bfs::next: if the successor is
freshly discovered, mark it and push it at the back of the queue. -/
def visitQueue (acc : Finset Nat × List Nat) (x : Nat) : Finset Nat × List Nat :=
  if x ∈ acc.1 then acc else (insert x acc.1, acc.2 ++ [x])

/-- A depth first search of a graph: the stack of nodes to visit (head =
top) and the map of discovered nodes. -/
structure Dfs where
  stack : List Nat
  discovered : Finset Nat
deriving DecidableEq

namespace Dfs

/-- Dfs::empty: the graph's visitor map and no stack. -/
def empty (g : SGraph) : Dfs := ⟨[], g.visit_map⟩

/-- Dfs::move_to: keep the discovered map, clear the stack, push start. -/
def move_to (d : Dfs) (start : Nat) : Dfs :=
  ⟨[start], insert start d.discovered⟩

/-- Dfs::new: empty then move_to start. -/
def new (g : SGraph) (start : Nat) : Dfs := (Dfs.empty g).move_to start

/-- Dfs::next: pop a node; push each freshly discovered neighbor; return the
popped node.  The neighbor enumeration `nbr` stands for the IntoNeighbors
capability of the graph argument passed to this call. -/
def next (nbr : Nat → List Nat) (d : Dfs) : Option (Nat × Dfs) :=
  match d.stack with
  | [] => none
  | node :: rest =>
    let s := (nbr node).foldl visitPush (d.discovered, rest)
    some (node, ⟨s.2, s.1⟩)

end Dfs

/-- A breadth first search of a graph: the queue of nodes to visit (head =
front) and the map of discovered nodes.  The queue field is called `stack`
in the source. -/
structure Bfs where
  stack : List Nat
  discovered : Finset Nat
deriving DecidableEq

namespace Bfs

/-- Bfs::new: mark start, queue it. -/
def new (_g : SGraph) (start : Nat) : Bfs := ⟨[start], {start}⟩

/-- Bfs::next: pop the front node; push each freshly discovered neighbor at
the back; return the popped node. -/
def next (nbr : Nat → List Nat) (b : Bfs) : Option (Nat × Bfs) :=
  match b.stack with
  | [] => none
  | node :: rest =>
    let s := (nbr node).foldl visitQueue (b.discovered, rest)
    some (node, ⟨s.2, s.1⟩)

end Bfs

/-- A topological order traversal: the worklist (head = top of the Vec) and
the ordered map. -/
structure Topo where
  tovisit : List Nat
  ordered : Finset Nat
deriving DecidableEq

namespace Topo

/-- Topo::empty: the graph's visitor map and no pending nodes. -/
def empty (g : SGraph) : Topo := ⟨[], g.visit_map⟩

/-- Topo::new: seed the worklist with all nodes lacking incoming edges.
`extend` pushes the externals in order onto the Vec, so in the head-is-top
model the list is reversed. -/
def new (g : SGraph) : Topo :=
  ⟨(g.externals .Incoming).reverse ++ (Topo.empty g).tovisit, (Topo.empty g).ordered⟩

/-- The nodes pushed after marking `nix` ordered: each outgoing neighbor all
of whose incoming neighbors are already ordered.  Pushing onto the Vec in
iteration order reverses the list in the head-is-top model. -/
def pushes (g : SGraph) (ord : Finset Nat) (nix : Nat) : List Nat :=
  ((g.neighbors_directed nix .Outgoing).filter
    (fun neigh => (g.neighbors_directed neigh .Incoming).all (fun b => b ∈ ord))).reverse

/-- The skip-duplicates inner loop of Topo::next on a given worklist. -/
def nextGo (g : SGraph) (ord : Finset Nat) : List Nat → Option (Nat × Topo)
  | [] => none
  | nix :: rest =>
    if nix ∈ ord then nextGo g ord rest
    else
      some (nix, ⟨Topo.pushes g (insert nix ord) nix ++ rest, insert nix ord⟩)

/-- Topo::next: pop pending nodes, skipping already ordered ones; mark the
first fresh one ordered, enqueue its newly ready successors, return it. -/
def next (g : SGraph) (t : Topo) : Option (Nat × Topo) :=
  nextGo g t.ordered t.tovisit

end Topo

/-! ### Characterizing the neighbor-marking fold of Dfs::next / Bfs::next -/

lemma foldl_visitPush_spec (xs : List Nat) (disc : Finset Nat) (st : List Nat) :
    ∃ fl : List Nat,
      (xs.foldl visitPush (disc, st)).1 = disc ∪ xs.toFinset ∧
      (xs.foldl visitPush (disc, st)).2 = fl ++ st ∧
      fl.Nodup ∧ ∀ y, y ∈ fl ↔ (y ∈ xs ∧ y ∉ disc) := by
  induction xs generalizing disc st with
  | nil => exact ⟨[], by simp, by simp, by simp, by simp⟩
  | cons x xs ih =>
    rw [List.foldl_cons]
    by_cases hx : x ∈ disc
    · rw [show visitPush (disc, st) x = (disc, st) by simp [visitPush, hx]]
      obtain ⟨fl, h1, h2, h3, h4⟩ := ih disc st
      refine ⟨fl, ?_, h2, h3, ?_⟩
      · rw [h1, List.toFinset_cons, Finset.union_insert,
          Finset.insert_eq_self.mpr (Finset.mem_union_left _ hx)]
      · intro y
        rw [h4 y]
        constructor
        · rintro ⟨hy, hnd⟩; exact ⟨List.mem_cons_of_mem _ hy, hnd⟩
        · rintro ⟨hy, hnd⟩
          rcases List.mem_cons.mp hy with rfl | hy
          · exact absurd hx hnd
          · exact ⟨hy, hnd⟩
    · rw [show visitPush (disc, st) x = (insert x disc, x :: st) by
        simp [visitPush, hx]]
      obtain ⟨fl, h1, h2, h3, h4⟩ := ih (insert x disc) (x :: st)
      have hxfl : x ∉ fl := fun hmem => by
        have := (h4 x).mp hmem
        simp at this
      refine ⟨fl ++ [x], ?_, ?_, ?_, ?_⟩
      · rw [h1, List.toFinset_cons, Finset.insert_union, Finset.union_insert]
      · rw [h2, List.append_assoc, List.singleton_append]
      · simp [List.nodup_append, h3, hxfl]
      · intro y
        rw [List.mem_append, h4 y, List.mem_singleton]
        constructor
        · rintro (⟨hy, hnd⟩ | rfl)
          · exact ⟨List.mem_cons_of_mem _ hy, fun h => hnd (Finset.mem_insert_of_mem h)⟩
          · exact ⟨List.mem_cons_self _ _, hx⟩
        · rintro ⟨hy, hnd⟩
          by_cases hyx : y = x
          · exact Or.inr hyx
          · rcases List.mem_cons.mp hy with rfl | hy
            · exact Or.inr rfl
            · exact Or.inl ⟨hy, by simp [Finset.mem_insert, hyx, hnd]⟩

lemma foldl_visitQueue_spec (xs : List Nat) (disc : Finset Nat) (st : List Nat) :
    ∃ fl : List Nat,
      (xs.foldl visitQueue (disc, st)).1 = disc ∪ xs.toFinset ∧
      (xs.foldl visitQueue (disc, st)).2 = st ++ fl ∧
      fl.Nodup ∧ ∀ y, y ∈ fl ↔ (y ∈ xs ∧ y ∉ disc) := by
  induction xs generalizing disc st with
  | nil => exact ⟨[], by simp, by simp, by simp, by simp⟩
  | cons x xs ih =>
    rw [List.foldl_cons]
    by_cases hx : x ∈ disc
    · rw [show visitQueue (disc, st) x = (disc, st) by simp [visitQueue, hx]]
      obtain ⟨fl, h1, h2, h3, h4⟩ := ih disc st
      refine ⟨fl, ?_, h2, h3, ?_⟩
      · rw [h1, List.toFinset_cons, Finset.union_insert,
          Finset.insert_eq_self.mpr (Finset.mem_union_left _ hx)]
      · intro y
        rw [h4 y]
        constructor
        · rintro ⟨hy, hnd⟩; exact ⟨List.mem_cons_of_mem _ hy, hnd⟩
        · rintro ⟨hy, hnd⟩
          rcases List.mem_cons.mp hy with rfl | hy
          · exact absurd hx hnd
          · exact ⟨hy, hnd⟩
    · rw [show visitQueue (disc, st) x = (insert x disc, st ++ [x]) by
        simp [visitQueue, hx]]
      obtain ⟨fl, h1, h2, h3, h4⟩ := ih (insert x disc) (st ++ [x])
      have hxfl : x ∉ fl := fun hmem => by
        have := (h4 x).mp hmem
        simp at this
      refine ⟨x :: fl, ?_, ?_, ?_, ?_⟩
      · rw [h1, List.toFinset_cons, Finset.insert_union, Finset.union_insert]
      · rw [h2, List.append_assoc, List.singleton_append]
      · simp [h3, hxfl]
      · intro y
        rw [List.mem_cons, h4 y]
        constructor
        · rintro (rfl | ⟨hy, hnd⟩)
          · exact ⟨List.mem_cons_self _ _, hx⟩
          · exact ⟨List.mem_cons_of_mem _ hy, fun h => hnd (Finset.mem_insert_of_mem h)⟩
        · rintro ⟨hy, hnd⟩
          by_cases hyx : y = x
          · exact Or.inl hyx
          · rcases List.mem_cons.mp hy with rfl | hy
            · exact Or.inl rfl
            · exact Or.inr ⟨hy, by simp [Finset.mem_insert, hyx, hnd]⟩

/-- The fresh-element list of a marking fold, as a Finset. -/
lemma freshList_toFinset {fl xs : List Nat} {disc : Finset Nat}
    (h : ∀ y, y ∈ fl ↔ (y ∈ xs ∧ y ∉ disc)) :
    fl.toFinset = xs.toFinset \ disc := by
  ext y
  simp [h y]

/-! ### Driving a traversal to completion (the callers' while-let loops) -/

/-- Run Dfs::next repeatedly (at most `fuel` times), collecting the emitted
nodes and the final engine state. -/
def dfsRun (nbr : Nat → List Nat) : Nat → Dfs → List Nat × Dfs
  | 0, d => ([], d)
  | fuel + 1, d =>
    match Dfs.next nbr d with
    | none => ([], d)
    | some (x, d2) =>
      let r := dfsRun nbr fuel d2
      (x :: r.1, r.2)

/-- Run Bfs::next repeatedly, collecting the emitted nodes and final state. -/
def bfsRun (nbr : Nat → List Nat) : Nat → Bfs → List Nat × Bfs
  | 0, b => ([], b)
  | fuel + 1, b =>
    match Bfs.next nbr b with
    | none => ([], b)
    | some (x, b2) =>
      let r := bfsRun nbr fuel b2
      (x :: r.1, r.2)

lemma Dfs.next_nil {nbr : Nat → List Nat} {d : Dfs} (h : d.stack = []) :
    Dfs.next nbr d = none := by
  unfold Dfs.next
  rw [h]

lemma Dfs.next_cons {nbr : Nat → List Nat} {d : Dfs} {node : Nat} {rest : List Nat}
    (h : d.stack = node :: rest) :
    Dfs.next nbr d = some (node,
      ⟨((nbr node).foldl visitPush (d.discovered, rest)).2,
       ((nbr node).foldl visitPush (d.discovered, rest)).1⟩) := by
  unfold Dfs.next
  rw [h]

lemma Bfs.step_nil {nbr : Nat → List Nat} {b : Bfs} (h : b.stack = []) :
    Bfs.next nbr b = none := by
  unfold Bfs.next
  rw [h]

lemma Bfs.step_cons {nbr : Nat → List Nat} {b : Bfs} {node : Nat} {rest : List Nat}
    (h : b.stack = node :: rest) :
    Bfs.next nbr b = some (node,
      ⟨((nbr node).foldl visitQueue (b.discovered, rest)).2,
       ((nbr node).foldl visitQueue (b.discovered, rest)).1⟩) := by
  unfold Bfs.next
  rw [h]

lemma dfsRun_stack_nil {nbr : Nat → List Nat} {d : Dfs} (h : d.stack = [])
    (fuel : Nat) : dfsRun nbr fuel d = ([], d) := by
  cases fuel with
  | zero => rfl
  | succ n => rw [dfsRun, Dfs.next_nil h]

lemma bfsRun_stack_nil {nbr : Nat → List Nat} {b : Bfs} (h : b.stack = [])
    (fuel : Nat) : bfsRun nbr fuel b = ([], b) := by
  cases fuel with
  | zero => rfl
  | succ n => rw [bfsRun, Bfs.step_nil h]

/-! ### DFS driver lemmas -/

lemma Dfs.next_mono {nbr : Nat → List Nat} {d : Dfs} {p : Nat × Dfs}
    (h : Dfs.next nbr d = some p) : d.discovered ⊆ p.2.discovered := by
  cases hst : d.stack with
  | nil => rw [Dfs.next_nil hst] at h; cases h
  | cons node rest =>
    rw [Dfs.next_cons hst] at h
    obtain ⟨fl, h1, h2, h3, h4⟩ := foldl_visitPush_spec (nbr node) d.discovered rest
    cases h
    simp only [h1]
    exact Finset.subset_union_left

lemma dfsRun_mono (nbr : Nat → List Nat) :
    ∀ (fuel : Nat) (d : Dfs), d.discovered ⊆ (dfsRun nbr fuel d).2.discovered := by
  intro fuel
  induction fuel with
  | zero => intro d; exact Finset.Subset.refl _
  | succ n ih =>
    intro d
    cases hst : d.stack with
    | nil => rw [dfsRun_stack_nil hst]
    | cons node rest =>
      rw [dfsRun, Dfs.next_cons hst]
      obtain ⟨fl, h1, h2, h3, h4⟩ := foldl_visitPush_spec (nbr node) d.discovered rest
      refine Finset.Subset.trans ?_ (ih _)
      simp only [h1]
      exact Finset.subset_union_left

lemma dfsRun_sound (nbr : Nat → List Nat) (R : Nat → Prop)
    (hcl : ∀ x y, R x → y ∈ nbr x → R y) :
    ∀ (fuel : Nat) (d : Dfs), (∀ x ∈ d.stack, R x) →
      ∀ z ∈ (dfsRun nbr fuel d).1, R z := by
  intro fuel
  induction fuel with
  | zero => intro d _ z hz; simp [dfsRun] at hz
  | succ n ih =>
    intro d hstR z hz
    cases hst : d.stack with
    | nil => rw [dfsRun_stack_nil hst] at hz; simp at hz
    | cons node rest =>
      rw [dfsRun, Dfs.next_cons hst] at hz
      obtain ⟨fl, h1, h2, h3, h4⟩ := foldl_visitPush_spec (nbr node) d.discovered rest
      have hnode : R node := hstR node (hst ▸ List.mem_cons_self _ _)
      rcases List.mem_cons.mp hz with rfl | hz
      · exact hnode
      · refine ih _ ?_ z hz
        intro x hx
        simp only [h2] at hx
        rcases List.mem_append.mp hx with hx | hx
        · exact hcl node x hnode ((h4 x).mp hx).1
        · exact hstR x (hst ▸ List.mem_cons_of_mem _ hx)

lemma dfsRun_uni (nbr : Nat → List Nat) :
    ∀ (fuel : Nat) (d : Dfs), (∀ x ∈ d.stack, x ∈ d.discovered) →
      ∀ z ∈ (dfsRun nbr fuel d).1, z ∈ d.stack ∨ z ∉ d.discovered := by
  intro fuel
  induction fuel with
  | zero => intro d _ z hz; simp [dfsRun] at hz
  | succ n ih =>
    intro d hJ z hz
    cases hst : d.stack with
    | nil => rw [dfsRun_stack_nil hst] at hz; simp at hz
    | cons node rest =>
      rw [dfsRun, Dfs.next_cons hst] at hz
      obtain ⟨fl, h1, h2, h3, h4⟩ := foldl_visitPush_spec (nbr node) d.discovered rest
      rcases List.mem_cons.mp hz with rfl | hz
      · exact Or.inl (List.mem_cons_self _ _)
      · have hJ2 : ∀ x ∈ (Dfs.mk ((nbr node).foldl visitPush (d.discovered, rest)).2
            ((nbr node).foldl visitPush (d.discovered, rest)).1).stack,
            x ∈ (Dfs.mk ((nbr node).foldl visitPush (d.discovered, rest)).2
            ((nbr node).foldl visitPush (d.discovered, rest)).1).discovered := by
          intro x hx
          simp only [h2] at hx
          simp only [h1]
          rcases List.mem_append.mp hx with hx | hx
          · exact Finset.mem_union_right _ (List.mem_toFinset.mpr ((h4 x).mp hx).1)
          · exact Finset.mem_union_left _ (hJ x (hst ▸ List.mem_cons_of_mem _ hx))
        rcases ih _ hJ2 z hz with hzs | hzd
        · simp only [h2] at hzs
          rcases List.mem_append.mp hzs with hzs | hzs
          · exact Or.inr ((h4 z).mp hzs).2
          · exact Or.inl (List.mem_cons_of_mem _ hzs)
        · simp only [h1] at hzd
          exact Or.inr (fun hd => hzd (Finset.mem_union_left _ hd))

lemma dfsRun_nodup (nbr : Nat → List Nat) :
    ∀ (fuel : Nat) (d : Dfs), (∀ x ∈ d.stack, x ∈ d.discovered) →
      d.stack.Nodup → (dfsRun nbr fuel d).1.Nodup := by
  intro fuel
  induction fuel with
  | zero => intro d _ _; simp [dfsRun]
  | succ n ih =>
    intro d hJ hnd
    cases hst : d.stack with
    | nil => rw [dfsRun_stack_nil hst]; exact List.nodup_nil
    | cons node rest =>
      rw [dfsRun, Dfs.next_cons hst]
      obtain ⟨fl, h1, h2, h3, h4⟩ := foldl_visitPush_spec (nbr node) d.discovered rest
      rw [hst] at hnd
      have hrestd : ∀ x ∈ rest, x ∈ d.discovered := fun x hx =>
        hJ x (hst ▸ List.mem_cons_of_mem _ hx)
      have hJ2 : ∀ x ∈ fl ++ rest,
          x ∈ d.discovered ∪ (nbr node).toFinset := by
        intro x hx
        rcases List.mem_append.mp hx with hx | hx
        · exact Finset.mem_union_right _ (List.mem_toFinset.mpr ((h4 x).mp hx).1)
        · exact Finset.mem_union_left _ (hrestd x hx)
      have hnd2 : (fl ++ rest).Nodup := by
        rw [List.nodup_append]
        refine ⟨h3, (List.nodup_cons.mp hnd).2, ?_⟩
        intro x hxfl hxrest
        exact ((h4 x).mp hxfl).2 (hrestd x hxrest)
      refine List.nodup_cons.mpr ⟨?_, ?_⟩
      · intro hmem
        have := dfsRun_uni nbr n _ (by simpa only [h1, h2] using hJ2) node hmem
        rcases this with hs | hd
        · simp only [h2] at hs
          rcases List.mem_append.mp hs with hs | hs
          · exact ((h4 node).mp hs).2 (hJ node (hst ▸ List.mem_cons_self _ _))
          · exact (List.nodup_cons.mp hnd).1 hs
        · simp only [h1] at hd
          exact hd (Finset.mem_union_left _ (hJ node (hst ▸ List.mem_cons_self _ _)))
      · exact ih _ (by simpa only [h1, h2] using hJ2) (by simpa only [h2] using hnd2)

lemma dfsRun_all (nbr : Nat → List Nat) :
    ∀ (fuel : Nat) (d : Dfs), (dfsRun nbr fuel d).2.stack = [] →
      ∀ x ∈ d.stack, x ∈ (dfsRun nbr fuel d).1 := by
  intro fuel
  induction fuel with
  | zero =>
    intro d hfin x hx
    have hnil : d.stack = [] := hfin
    rw [hnil] at hx
    cases hx
  | succ n ih =>
    intro d hfin x hx
    cases hst : d.stack with
    | nil => rw [hst] at hx; cases hx
    | cons node rest =>
      rw [dfsRun, Dfs.next_cons hst] at hfin ⊢
      obtain ⟨fl, h1, h2, h3, h4⟩ := foldl_visitPush_spec (nbr node) d.discovered rest
      rw [hst] at hx
      rcases List.mem_cons.mp hx with rfl | hx
      · exact List.mem_cons_self _ _
      · refine List.mem_cons_of_mem _ (ih _ hfin x ?_)
        simp only [h2]
        exact List.mem_append.mpr (Or.inr hx)

lemma dfsRun_disc (nbr : Nat → List Nat) :
    ∀ (fuel : Nat) (d : Dfs), (∀ x ∈ d.stack, x ∈ d.discovered) →
      (dfsRun nbr fuel d).2.stack = [] →
      (dfsRun nbr fuel d).2.discovered = d.discovered ∪ (dfsRun nbr fuel d).1.toFinset := by
  intro fuel
  induction fuel with
  | zero => intro d _ _; simp [dfsRun]
  | succ n ih =>
    intro d hJ hfin
    cases hst : d.stack with
    | nil => rw [dfsRun_stack_nil hst]; simp
    | cons node rest =>
      rw [dfsRun, Dfs.next_cons hst] at hfin ⊢
      obtain ⟨fl, h1, h2, h3, h4⟩ := foldl_visitPush_spec (nbr node) d.discovered rest
      have hJ2 : ∀ x ∈ (Dfs.mk ((nbr node).foldl visitPush (d.discovered, rest)).2
          ((nbr node).foldl visitPush (d.discovered, rest)).1).stack,
          x ∈ (Dfs.mk ((nbr node).foldl visitPush (d.discovered, rest)).2
          ((nbr node).foldl visitPush (d.discovered, rest)).1).discovered := by
        intro x hx
        simp only [h2] at hx
        simp only [h1]
        rcases List.mem_append.mp hx with hx | hx
        · exact Finset.mem_union_right _ (List.mem_toFinset.mpr ((h4 x).mp hx).1)
        · exact Finset.mem_union_left _ (hJ x (hst ▸ List.mem_cons_of_mem _ hx))
      have hrec := ih _ hJ2 hfin
      rw [hrec]
      ext y
      simp only [Finset.mem_union, List.toFinset_cons, Finset.mem_insert,
        List.mem_toFinset]
      constructor
      · rintro (hy | hy)
        · rw [h1] at hy
          rcases Finset.mem_union.mp hy with hy | hy
          · exact Or.inl hy
          · by_cases hyd : y ∈ d.discovered
            · exact Or.inl hyd
            · refine Or.inr (Or.inr ?_)
              refine dfsRun_all nbr n _ hfin y ?_
              show y ∈ ((nbr node).foldl visitPush (d.discovered, rest)).2
              rw [h2]
              exact List.mem_append.mpr
                (Or.inl ((h4 y).mpr ⟨List.mem_toFinset.mp hy, hyd⟩))
        · exact Or.inr (Or.inr hy)
      · rintro (hy | rfl | hy)
        · refine Or.inl ?_
          rw [h1]
          exact Finset.mem_union_left _ hy
        · refine Or.inl ?_
          rw [h1]
          exact Finset.mem_union_left _ (hJ y (by rw [hst]; exact List.mem_cons_self _ _))
        · exact Or.inr hy

lemma dfsRun_comp (nbr : Nat → List Nat) :
    ∀ (fuel : Nat) (d : Dfs), (dfsRun nbr fuel d).2.stack = [] →
      ∀ x ∈ (dfsRun nbr fuel d).1, ∀ y ∈ nbr x,
        y ∈ (dfsRun nbr fuel d).1 ∨ y ∈ d.discovered := by
  intro fuel
  induction fuel with
  | zero => intro d _ x hx; simp [dfsRun] at hx
  | succ n ih =>
    intro d hfin x hx y hy
    cases hst : d.stack with
    | nil => rw [dfsRun_stack_nil hst] at hx; simp at hx
    | cons node rest =>
      rw [dfsRun, Dfs.next_cons hst] at hfin hx ⊢
      obtain ⟨fl, h1, h2, h3, h4⟩ := foldl_visitPush_spec (nbr node) d.discovered rest
      rcases List.mem_cons.mp hx with rfl | hx
      · by_cases hyd : y ∈ d.discovered
        · exact Or.inr hyd
        · refine Or.inl (List.mem_cons_of_mem _ ?_)
          refine dfsRun_all nbr n _ hfin y ?_
          simp only [h2]
          exact List.mem_append.mpr (Or.inl ((h4 y).mpr ⟨hy, hyd⟩))
      · rcases ih _ hfin x hx y hy with hyr | hyd
        · exact Or.inl (List.mem_cons_of_mem _ hyr)
        · simp only [h1, Finset.mem_union, List.mem_toFinset] at hyd
          rcases hyd with hyd | hyn
          · exact Or.inr hyd
          · by_cases hyd2 : y ∈ d.discovered
            · exact Or.inr hyd2
            · refine Or.inl (List.mem_cons_of_mem _ ?_)
              refine dfsRun_all nbr n _ hfin y ?_
              simp only [h2]
              exact List.mem_append.mpr (Or.inl ((h4 y).mpr ⟨hyn, hyd2⟩))

/-- Termination measure for the DFS driver relative to a universe `U`
containing every possible neighbor. -/
def dfsMeasure (U : Finset Nat) (d : Dfs) : Nat :=
  ((U ∪ d.stack.toFinset) \ d.discovered).card + d.stack.length

lemma dfsRun_drain (nbr : Nat → List Nat) (U : Finset Nat)
    (hU : ∀ x, ∀ y ∈ nbr x, y ∈ U) :
    ∀ (fuel : Nat) (d : Dfs), dfsMeasure U d < fuel →
      (dfsRun nbr fuel d).2.stack = [] := by
  intro fuel
  induction fuel with
  | zero => intro d h; cases h
  | succ n ih =>
    intro d hm
    cases hst : d.stack with
    | nil => rw [dfsRun_stack_nil hst]; exact hst
    | cons node rest =>
      rw [dfsRun, Dfs.next_cons hst]
      obtain ⟨fl, h1, h2, h3, h4⟩ := foldl_visitPush_spec (nbr node) d.discovered rest
      refine ih _ ?_
      have hdec : dfsMeasure U (Dfs.mk ((nbr node).foldl visitPush (d.discovered, rest)).2
          ((nbr node).foldl visitPush (d.discovered, rest)).1) < dfsMeasure U d := by
        unfold dfsMeasure
        simp only [h1, h2, hst]
        have hsub : ((U ∪ (fl ++ rest).toFinset) \ (d.discovered ∪ (nbr node).toFinset))
            ∪ fl.toFinset ⊆ (U ∪ (node :: rest).toFinset) \ d.discovered := by
          intro y hy
          rcases Finset.mem_union.mp hy with hy | hy
        -- elements surviving the recursive difference
          · obtain ⟨hy1, hy2⟩ := Finset.mem_sdiff.mp hy
            refine Finset.mem_sdiff.mpr ⟨?_, fun hd => hy2 (Finset.mem_union_left _ hd)⟩
            rcases Finset.mem_union.mp hy1 with hy1 | hy1
            · exact Finset.mem_union_left _ hy1
            · rcases List.mem_toFinset.mp hy1 |> List.mem_append.mp with hy1 | hy1
              · exact Finset.mem_union_left _ (hU node y ((h4 y).mp hy1).1)
              · exact Finset.mem_union_right _ (List.mem_toFinset.mpr (List.mem_cons_of_mem _ hy1))
          · have hyfl := List.mem_toFinset.mp hy
            refine Finset.mem_sdiff.mpr ⟨Finset.mem_union_left _ (hU node y ((h4 y).mp hyfl).1),
              ((h4 y).mp hyfl).2⟩
        have hdisj : Disjoint ((U ∪ (fl ++ rest).toFinset)
            \ (d.discovered ∪ (nbr node).toFinset)) fl.toFinset := by
          rw [Finset.disjoint_right]
          intro y hy
          have hyfl := List.mem_toFinset.mp hy
          intro hmem
          exact (Finset.mem_sdiff.mp hmem).2
            (Finset.mem_union_right _ (List.mem_toFinset.mpr ((h4 y).mp hyfl).1))
        have hcard : ((U ∪ (fl ++ rest).toFinset)
            \ (d.discovered ∪ (nbr node).toFinset)).card + fl.toFinset.card
            ≤ ((U ∪ (node :: rest).toFinset) \ d.discovered).card := by
          rw [← Finset.card_union_of_disjoint hdisj]
          exact Finset.card_le_card hsub
        rw [List.toFinset_card_of_nodup h3] at hcard
        simp only [List.length_append, List.length_cons]
        omega
      omega

/-! ### BFS driver lemmas (mirror of the DFS suite for the FIFO frontier) -/

lemma Bfs.step_mono {nbr : Nat → List Nat} {b : Bfs} {p : Nat × Bfs}
    (h : Bfs.next nbr b = some p) : b.discovered ⊆ p.2.discovered := by
  cases hst : b.stack with
  | nil => rw [Bfs.step_nil hst] at h; cases h
  | cons node rest =>
    rw [Bfs.step_cons hst] at h
    obtain ⟨fl, h1, h2, h3, h4⟩ := foldl_visitQueue_spec (nbr node) b.discovered rest
    cases h
    simp only [h1]
    exact Finset.subset_union_left

lemma bfsRun_sound (nbr : Nat → List Nat) (R : Nat → Prop)
    (hcl : ∀ x y, R x → y ∈ nbr x → R y) :
    ∀ (fuel : Nat) (b : Bfs), (∀ x ∈ b.stack, R x) →
      ∀ z ∈ (bfsRun nbr fuel b).1, R z := by
  intro fuel
  induction fuel with
  | zero => intro b _ z hz; simp [bfsRun] at hz
  | succ n ih =>
    intro b hstR z hz
    cases hst : b.stack with
    | nil => rw [bfsRun_stack_nil hst] at hz; simp at hz
    | cons node rest =>
      rw [bfsRun, Bfs.step_cons hst] at hz
      obtain ⟨fl, h1, h2, h3, h4⟩ := foldl_visitQueue_spec (nbr node) b.discovered rest
      have hnode : R node := hstR node (hst ▸ List.mem_cons_self _ _)
      rcases List.mem_cons.mp hz with rfl | hz
      · exact hnode
      · refine ih _ ?_ z hz
        intro x hx
        simp only [h2] at hx
        rcases List.mem_append.mp hx with hx | hx
        · exact hstR x (hst ▸ List.mem_cons_of_mem _ hx)
        · exact hcl node x hnode ((h4 x).mp hx).1

lemma bfsRun_uni (nbr : Nat → List Nat) :
    ∀ (fuel : Nat) (b : Bfs), (∀ x ∈ b.stack, x ∈ b.discovered) →
      ∀ z ∈ (bfsRun nbr fuel b).1, z ∈ b.stack ∨ z ∉ b.discovered := by
  intro fuel
  induction fuel with
  | zero => intro b _ z hz; simp [bfsRun] at hz
  | succ n ih =>
    intro b hJ z hz
    cases hst : b.stack with
    | nil => rw [bfsRun_stack_nil hst] at hz; simp at hz
    | cons node rest =>
      rw [bfsRun, Bfs.step_cons hst] at hz
      obtain ⟨fl, h1, h2, h3, h4⟩ := foldl_visitQueue_spec (nbr node) b.discovered rest
      rcases List.mem_cons.mp hz with rfl | hz
      · exact Or.inl (List.mem_cons_self _ _)
      · have hJ2 : ∀ x ∈ (Bfs.mk ((nbr node).foldl visitQueue (b.discovered, rest)).2
            ((nbr node).foldl visitQueue (b.discovered, rest)).1).stack,
            x ∈ (Bfs.mk ((nbr node).foldl visitQueue (b.discovered, rest)).2
            ((nbr node).foldl visitQueue (b.discovered, rest)).1).discovered := by
          intro x hx
          simp only [h2] at hx
          simp only [h1]
          rcases List.mem_append.mp hx with hx | hx
          · exact Finset.mem_union_left _ (hJ x (hst ▸ List.mem_cons_of_mem _ hx))
          · exact Finset.mem_union_right _ (List.mem_toFinset.mpr ((h4 x).mp hx).1)
        rcases ih _ hJ2 z hz with hzs | hzd
        · simp only [h2] at hzs
          rcases List.mem_append.mp hzs with hzs | hzs
          · exact Or.inl (List.mem_cons_of_mem _ hzs)
          · exact Or.inr ((h4 z).mp hzs).2
        · simp only [h1] at hzd
          exact Or.inr (fun hd => hzd (Finset.mem_union_left _ hd))

lemma bfsRun_nodup (nbr : Nat → List Nat) :
    ∀ (fuel : Nat) (b : Bfs), (∀ x ∈ b.stack, x ∈ b.discovered) →
      b.stack.Nodup → (bfsRun nbr fuel b).1.Nodup := by
  intro fuel
  induction fuel with
  | zero => intro b _ _; simp [bfsRun]
  | succ n ih =>
    intro b hJ hnd
    cases hst : b.stack with
    | nil => rw [bfsRun_stack_nil hst]; exact List.nodup_nil
    | cons node rest =>
      rw [bfsRun, Bfs.step_cons hst]
      obtain ⟨fl, h1, h2, h3, h4⟩ := foldl_visitQueue_spec (nbr node) b.discovered rest
      rw [hst] at hnd
      have hrestd : ∀ x ∈ rest, x ∈ b.discovered := fun x hx =>
        hJ x (hst ▸ List.mem_cons_of_mem _ hx)
      have hJ2 : ∀ x ∈ rest ++ fl,
          x ∈ b.discovered ∪ (nbr node).toFinset := by
        intro x hx
        rcases List.mem_append.mp hx with hx | hx
        · exact Finset.mem_union_left _ (hrestd x hx)
        · exact Finset.mem_union_right _ (List.mem_toFinset.mpr ((h4 x).mp hx).1)
      have hnd2 : (rest ++ fl).Nodup := by
        rw [List.nodup_append]
        refine ⟨(List.nodup_cons.mp hnd).2, h3, ?_⟩
        intro x hxrest hxfl
        exact ((h4 x).mp hxfl).2 (hrestd x hxrest)
      refine List.nodup_cons.mpr ⟨?_, ?_⟩
      · intro hmem
        have := bfsRun_uni nbr n _ (by simpa only [h1, h2] using hJ2) node hmem
        rcases this with hs | hd
        · simp only [h2] at hs
          rcases List.mem_append.mp hs with hs | hs
          · exact (List.nodup_cons.mp hnd).1 hs
          · exact ((h4 node).mp hs).2 (hJ node (hst ▸ List.mem_cons_self _ _))
        · simp only [h1] at hd
          exact hd (Finset.mem_union_left _ (hJ node (hst ▸ List.mem_cons_self _ _)))
      · exact ih _ (by simpa only [h1, h2] using hJ2) (by simpa only [h2] using hnd2)

lemma bfsRun_all (nbr : Nat → List Nat) :
    ∀ (fuel : Nat) (b : Bfs), (bfsRun nbr fuel b).2.stack = [] →
      ∀ x ∈ b.stack, x ∈ (bfsRun nbr fuel b).1 := by
  intro fuel
  induction fuel with
  | zero =>
    intro b hfin x hx
    have hnil : b.stack = [] := hfin
    rw [hnil] at hx
    cases hx
  | succ n ih =>
    intro b hfin x hx
    cases hst : b.stack with
    | nil => rw [hst] at hx; cases hx
    | cons node rest =>
      rw [bfsRun, Bfs.step_cons hst] at hfin ⊢
      obtain ⟨fl, h1, h2, h3, h4⟩ := foldl_visitQueue_spec (nbr node) b.discovered rest
      rw [hst] at hx
      rcases List.mem_cons.mp hx with rfl | hx
      · exact List.mem_cons_self _ _
      · refine List.mem_cons_of_mem _ (ih _ hfin x ?_)
        simp only [h2]
        exact List.mem_append.mpr (Or.inl hx)

lemma bfsRun_comp (nbr : Nat → List Nat) :
    ∀ (fuel : Nat) (b : Bfs), (bfsRun nbr fuel b).2.stack = [] →
      ∀ x ∈ (bfsRun nbr fuel b).1, ∀ y ∈ nbr x,
        y ∈ (bfsRun nbr fuel b).1 ∨ y ∈ b.discovered := by
  intro fuel
  induction fuel with
  | zero => intro b _ x hx; simp [bfsRun] at hx
  | succ n ih =>
    intro b hfin x hx y hy
    cases hst : b.stack with
    | nil => rw [bfsRun_stack_nil hst] at hx; simp at hx
    | cons node rest =>
      rw [bfsRun, Bfs.step_cons hst] at hfin hx ⊢
      obtain ⟨fl, h1, h2, h3, h4⟩ := foldl_visitQueue_spec (nbr node) b.discovered rest
      rcases List.mem_cons.mp hx with rfl | hx
      · by_cases hyd : y ∈ b.discovered
        · exact Or.inr hyd
        · refine Or.inl (List.mem_cons_of_mem _ ?_)
          refine bfsRun_all nbr n _ hfin y ?_
          simp only [h2]
          exact List.mem_append.mpr (Or.inr ((h4 y).mpr ⟨hy, hyd⟩))
      · rcases ih _ hfin x hx y hy with hyr | hyd
        · exact Or.inl (List.mem_cons_of_mem _ hyr)
        · simp only [h1, Finset.mem_union, List.mem_toFinset] at hyd
          rcases hyd with hyd | hyn
          · exact Or.inr hyd
          · by_cases hyd2 : y ∈ b.discovered
            · exact Or.inr hyd2
            · refine Or.inl (List.mem_cons_of_mem _ ?_)
              refine bfsRun_all nbr n _ hfin y ?_
              simp only [h2]
              exact List.mem_append.mpr (Or.inr ((h4 y).mpr ⟨hyn, hyd2⟩))

/-- Termination measure for the BFS driver. -/
def bfsMeasure (U : Finset Nat) (b : Bfs) : Nat :=
  ((U ∪ b.stack.toFinset) \ b.discovered).card + b.stack.length

lemma bfsRun_drain (nbr : Nat → List Nat) (U : Finset Nat)
    (hU : ∀ x, ∀ y ∈ nbr x, y ∈ U) :
    ∀ (fuel : Nat) (b : Bfs), bfsMeasure U b < fuel →
      (bfsRun nbr fuel b).2.stack = [] := by
  intro fuel
  induction fuel with
  | zero => intro b h; cases h
  | succ n ih =>
    intro b hm
    cases hst : b.stack with
    | nil => rw [bfsRun_stack_nil hst]; exact hst
    | cons node rest =>
      rw [bfsRun, Bfs.step_cons hst]
      obtain ⟨fl, h1, h2, h3, h4⟩ := foldl_visitQueue_spec (nbr node) b.discovered rest
      refine ih _ ?_
      have hdec : bfsMeasure U (Bfs.mk ((nbr node).foldl visitQueue (b.discovered, rest)).2
          ((nbr node).foldl visitQueue (b.discovered, rest)).1) < bfsMeasure U b := by
        unfold bfsMeasure
        simp only [h1, h2, hst]
        have hsub : ((U ∪ (rest ++ fl).toFinset) \ (b.discovered ∪ (nbr node).toFinset))
            ∪ fl.toFinset ⊆ (U ∪ (node :: rest).toFinset) \ b.discovered := by
          intro y hy
          rcases Finset.mem_union.mp hy with hy | hy
          · obtain ⟨hy1, hy2⟩ := Finset.mem_sdiff.mp hy
            refine Finset.mem_sdiff.mpr ⟨?_, fun hd => hy2 (Finset.mem_union_left _ hd)⟩
            rcases Finset.mem_union.mp hy1 with hy1 | hy1
            · exact Finset.mem_union_left _ hy1
            · rcases List.mem_toFinset.mp hy1 |> List.mem_append.mp with hy1 | hy1
              · exact Finset.mem_union_right _ (List.mem_toFinset.mpr (List.mem_cons_of_mem _ hy1))
              · exact Finset.mem_union_left _ (hU node y ((h4 y).mp hy1).1)
          · have hyfl := List.mem_toFinset.mp hy
            refine Finset.mem_sdiff.mpr ⟨Finset.mem_union_left _ (hU node y ((h4 y).mp hyfl).1),
              ((h4 y).mp hyfl).2⟩
        have hdisj : Disjoint ((U ∪ (rest ++ fl).toFinset)
            \ (b.discovered ∪ (nbr node).toFinset)) fl.toFinset := by
          rw [Finset.disjoint_right]
          intro y hy
          have hyfl := List.mem_toFinset.mp hy
          intro hmem
          exact (Finset.mem_sdiff.mp hmem).2
            (Finset.mem_union_right _ (List.mem_toFinset.mpr ((h4 y).mp hyfl).1))
        have hcard : ((U ∪ (rest ++ fl).toFinset)
            \ (b.discovered ∪ (nbr node).toFinset)).card + fl.toFinset.card
            ≤ ((U ∪ (node :: rest).toFinset) \ b.discovered).card := by
          rw [← Finset.card_union_of_disjoint hdisj]
          exact Finset.card_le_card hsub
        rw [List.toFinset_card_of_nodup h3] at hcard
        simp only [List.length_append, List.length_cons]
        omega
      omega

/-! ### A finite universe containing every node a traversal can touch -/

/-- All node indices plus all edge endpoints. -/
def gUniv (g : SGraph) : Finset Nat :=
  (List.range g.n).toFinset ∪ (g.edges.map Prod.fst).toFinset
    ∪ (g.edges.map Prod.snd).toFinset

lemma mem_neighbors_iff (g : SGraph) (a b : Nat) :
    b ∈ g.neighbors a ↔ adj g a b := by
  simp only [SGraph.neighbors, SGraph.neighbors_directed, List.mem_map,
    List.mem_filter, adj]
  constructor
  · rintro ⟨e, ⟨he, hfst⟩, rfl⟩
    have : e = (a, e.2) := by
      cases e; simp_all [decide_eq_true_eq]
    rwa [← this]
  · intro h
    exact ⟨(a, b), ⟨h, by simp⟩, rfl⟩

lemma mem_neighbors_incoming_iff (g : SGraph) (a b : Nat) :
    b ∈ g.neighbors_directed a .Incoming ↔ adj g b a := by
  simp only [SGraph.neighbors_directed, List.mem_map, List.mem_filter, adj]
  constructor
  · rintro ⟨e, ⟨he, hsnd⟩, rfl⟩
    have : e = (e.1, a) := by
      cases e; simp_all [decide_eq_true_eq]
    rwa [← this]
  · intro h
    exact ⟨(b, a), ⟨h, by simp⟩, rfl⟩

lemma neighbors_subset_gUniv (g : SGraph) (x : Nat) :
    ∀ y ∈ g.neighbors x, y ∈ gUniv g := by
  intro y hy
  rw [mem_neighbors_iff] at hy
  refine Finset.mem_union_right _ (List.mem_toFinset.mpr ?_)
  exact List.mem_map.mpr ⟨(x, y), hy, rfl⟩

lemma neighbors_incoming_subset_gUniv (g : SGraph) (x : Nat) :
    ∀ y ∈ g.neighbors_directed x .Incoming, y ∈ gUniv g := by
  intro y hy
  rw [mem_neighbors_incoming_iff] at hy
  refine Finset.mem_union_left _ (Finset.mem_union_right _ (List.mem_toFinset.mpr ?_))
  exact List.mem_map.mpr ⟨(y, x), hy, rfl⟩

lemma neighbors_length_le (g : SGraph) (x : Nat) (d : EdgeDirection) :
    (g.neighbors_directed x d).length ≤ g.edges.length := by
  cases d <;>
    simp only [SGraph.neighbors_directed, List.length_map] <;>
    exact List.length_filter_le _ _

lemma neighbors_lt_of_wf {g : SGraph} (hwf : g.WF) (x y : Nat)
    (hy : y ∈ g.neighbors x) : y < g.n := by
  rw [mem_neighbors_iff] at hy
  exact (hwf _ hy).2

lemma neighbors_incoming_lt_of_wf {g : SGraph} (hwf : g.WF) (x y : Nat)
    (hy : y ∈ g.neighbors_directed x .Incoming) : y < g.n := by
  rw [mem_neighbors_incoming_iff] at hy
  exact (hwf _ hy).1

lemma mem_externals_incoming_iff (g : SGraph) (x : Nat) :
    x ∈ g.externals .Incoming ↔ x < g.n ∧ ∀ b, ¬ adj g b x := by
  simp only [SGraph.externals, List.mem_filter, List.mem_range,
    List.isEmpty_iff, decide_eq_true_eq]
  constructor
  · rintro ⟨hx, hemp⟩
    refine ⟨hx, fun b hb => ?_⟩
    have : b ∈ g.neighbors_directed x .Incoming :=
      (mem_neighbors_incoming_iff g x b).mpr hb
    rw [hemp] at this
    cases this
  · rintro ⟨hx, hnone⟩
    refine ⟨hx, ?_⟩
    cases hne : g.neighbors_directed x .Incoming with
    | nil => rfl
    | cons b rest =>
      exact absurd ((mem_neighbors_incoming_iff g x b).mp (hne ▸ List.mem_cons_self _ _))
        (hnone b)

/-! ### The shared worklist core of toposort / is_cyclic_directed (algo.rs) -/

/-- The fueled body of toposort_generic: pop pending nodes from the worklist,
skip already ordered ones, emit and mark fresh ones, and enqueue every
outgoing neighbor all of whose incoming neighbors are ordered.  Returns the
emission sequence together with the final (ordered, worklist) state. -/
def topoLoop (g : SGraph) : Nat → Finset Nat → List Nat → List Nat × (Finset Nat × List Nat)
  | 0, ord, tv => ([], (ord, tv))
  | fuel + 1, ord, tv =>
    match tv with
    | [] => ([], (ord, []))
    | nix :: rest =>
      if nix ∈ ord then topoLoop g fuel ord rest
      else
        let ord2 := insert nix ord
        let r := topoLoop g fuel ord2 (Topo.pushes g ord2 nix ++ rest)
        (nix :: r.1, r.2)

/-- Termination measure of the worklist loop. -/
def topoMeasure (g : SGraph) (ord : Finset Nat) (tv : List Nat) : Nat :=
  ((gUniv g ∪ tv.toFinset) \ ord).card * (g.edges.length + 1) + tv.length

/-- Fuel that provably drains the worklist. -/
def topoFuel (g : SGraph) : Nat :=
  topoMeasure g ∅ (g.externals .Incoming).reverse + 1

/-- toposort: run the worklist pass from the sources, collecting the emitted
nodes in order. -/
def toposort (g : SGraph) : List Nat :=
  (topoLoop g (topoFuel g) ∅ (g.externals .Incoming).reverse).1

/-- is_cyclic_directed: the worklist pass emits fewer nodes than node_count. -/
def is_cyclic_directed (g : SGraph) : Bool :=
  decide (¬ (toposort g).length = g.node_count)

lemma mem_topo_pushes_iff (g : SGraph) (ord : Finset Nat) (nix y : Nat) :
    y ∈ Topo.pushes g ord nix ↔
      adj g nix y ∧ ∀ b, adj g b y → b ∈ ord := by
  unfold Topo.pushes
  rw [List.mem_reverse, List.mem_filter]
  constructor
  · rintro ⟨hmem, hall⟩
    rw [List.all_eq_true] at hall
    refine ⟨(mem_neighbors_iff g nix y).mp hmem, fun b hb => ?_⟩
    have := hall b ((mem_neighbors_incoming_iff g y b).mpr hb)
    simpa using this
  · rintro ⟨hadj, hall⟩
    refine ⟨(mem_neighbors_iff g nix y).mpr hadj, ?_⟩
    rw [List.all_eq_true]
    intro b hb
    simpa using hall b ((mem_neighbors_incoming_iff g y b).mp hb)

lemma topo_pushes_subset_gUniv (g : SGraph) (ord : Finset Nat) (nix : Nat) :
    ∀ y ∈ Topo.pushes g ord nix, y ∈ gUniv g := by
  intro y hy
  have := ((mem_topo_pushes_iff g ord nix y).mp hy).1
  exact neighbors_subset_gUniv g nix y ((mem_neighbors_iff g nix y).mpr this)

lemma topo_pushes_length_le (g : SGraph) (ord : Finset Nat) (nix : Nat) :
    (Topo.pushes g ord nix).length ≤ g.edges.length := by
  unfold Topo.pushes
  rw [List.length_reverse]
  calc (List.filter _ (g.neighbors_directed nix .Outgoing)).length
      ≤ (g.neighbors_directed nix .Outgoing).length := List.length_filter_le _ _
    _ ≤ g.edges.length := neighbors_length_le g nix .Outgoing

/-! ### Invariants of the worklist loop -/

lemma topoLoop_basic (g : SGraph) :
    ∀ (fuel : Nat) (ord : Finset Nat) (tv : List Nat),
      (topoLoop g fuel ord tv).1.Nodup ∧
      (∀ x ∈ (topoLoop g fuel ord tv).1, x ∉ ord) ∧
      (topoLoop g fuel ord tv).2.1 = ord ∪ (topoLoop g fuel ord tv).1.toFinset := by
  intro fuel
  induction fuel with
  | zero =>
    intro ord tv
    exact ⟨List.nodup_nil, fun x hx => absurd hx (List.not_mem_nil x),
      by show ord = ord ∪ ([] : List Nat).toFinset; simp⟩
  | succ n ih =>
    intro ord tv
    cases tv with
    | nil =>
      exact ⟨List.nodup_nil, fun x hx => absurd hx (List.not_mem_nil x),
        by show ord = ord ∪ ([] : List Nat).toFinset; simp⟩
    | cons nix rest =>
      by_cases hmem : nix ∈ ord
      · simpa only [topoLoop, if_pos hmem] using ih ord rest
      · obtain ⟨ih1, ih2, ih3⟩ := ih (insert nix ord) (Topo.pushes g (insert nix ord) nix ++ rest)
        simp only [topoLoop, if_neg hmem]
        refine ⟨?_, ?_, ?_⟩
        · exact List.nodup_cons.mpr
            ⟨fun h => ih2 nix h (Finset.mem_insert_self _ _), ih1⟩
        · intro x hx
          rcases List.mem_cons.mp hx with rfl | hx
          · exact hmem
          · exact fun hx2 => ih2 x hx (Finset.mem_insert_of_mem hx2)
        · rw [ih3]
          ext y
          simp only [Finset.mem_union, Finset.mem_insert, List.toFinset_cons,
            List.mem_toFinset]
          tauto

lemma topoLoop_prec (g : SGraph) :
    ∀ (fuel : Nat) (ord : Finset Nat) (tv : List Nat),
      (∀ x ∈ tv, ∀ u, adj g u x → u ∈ ord) →
      ∀ (l1 : List Nat) (v : Nat) (l2 : List Nat),
        (topoLoop g fuel ord tv).1 = l1 ++ v :: l2 →
        ∀ u, adj g u v → u ∈ ord ∨ u ∈ l1 := by
  intro fuel
  induction fuel with
  | zero =>
    intro ord tv _ l1 v l2 heq
    exact absurd heq.symm (List.append_ne_nil_of_right_ne_nil _ (List.cons_ne_nil _ _))
  | succ n ih =>
    intro ord tv hI l1 v l2 heq
    cases tv with
    | nil =>
      rw [topoLoop] at heq
      exact absurd heq.symm (List.append_ne_nil_of_right_ne_nil _ (List.cons_ne_nil _ _))
    | cons nix rest =>
      by_cases hmem : nix ∈ ord
      · rw [topoLoop, if_pos hmem] at heq
        exact ih ord rest (fun x hx => hI x (List.mem_cons_of_mem _ hx)) l1 v l2 heq
      · rw [topoLoop, if_neg hmem] at heq
        have hI2 : ∀ x ∈ Topo.pushes g (insert nix ord) nix ++ rest,
            ∀ u, adj g u x → u ∈ insert nix ord := by
          intro x hx u hu
          rcases List.mem_append.mp hx with hx | hx
          · exact ((mem_topo_pushes_iff g _ nix x).mp hx).2 u hu
          · exact Finset.mem_insert_of_mem (hI x (List.mem_cons_of_mem _ hx) u hu)
        cases l1 with
        | nil =>
          rw [List.nil_append] at heq
          injection heq with h1 h2
          subst h1
          intro u hu
          exact Or.inl (hI nix (List.mem_cons_self _ _) u hu)
        | cons w l1t =>
          rw [List.cons_append] at heq
          injection heq with h1 h2
          subst h1
          intro u hu
          rcases ih _ _ hI2 l1t v l2 h2 u hu with hord | hl1
          · rcases Finset.mem_insert.mp hord with rfl | hord
            · exact Or.inr (List.mem_cons_self _ _)
            · exact Or.inl hord
          · exact Or.inr (List.mem_cons_of_mem _ hl1)

lemma topoLoop_absorb (g : SGraph) :
    ∀ (fuel : Nat) (ord : Finset Nat) (tv : List Nat),
      (topoLoop g fuel ord tv).2.2 = [] →
      ∀ x ∈ tv, x ∈ ord ∨ x ∈ (topoLoop g fuel ord tv).1 := by
  intro fuel
  induction fuel with
  | zero =>
    intro ord tv hfin x hx
    have : tv = [] := hfin
    rw [this] at hx
    cases hx
  | succ n ih =>
    intro ord tv hfin x hx
    cases tv with
    | nil => cases hx
    | cons nix rest =>
      by_cases hmem : nix ∈ ord
      · rw [topoLoop, if_pos hmem] at hfin ⊢
        rcases List.mem_cons.mp hx with rfl | hx
        · exact Or.inl hmem
        · exact ih ord rest hfin x hx
      · rw [topoLoop, if_neg hmem] at hfin ⊢
        rcases List.mem_cons.mp hx with rfl | hx
        · exact Or.inr (List.mem_cons_self _ _)
        · have := ih _ _ hfin x
            (List.mem_append.mpr (Or.inr hx))
          rcases this with hord | hres
          · rcases Finset.mem_insert.mp hord with rfl | hord
            · exact Or.inr (List.mem_cons_self _ _)
            · exact Or.inl hord
          · exact Or.inr (List.mem_cons_of_mem _ hres)

lemma topoLoop_closure (g : SGraph) :
    ∀ (fuel : Nat) (ord : Finset Nat) (tv : List Nat),
      (topoLoop g fuel ord tv).2.2 = [] →
      ∀ v, (∃ u, adj g u v) →
        (∀ u, adj g u v → u ∈ ord ∨ u ∈ (topoLoop g fuel ord tv).1) →
        (∀ u, adj g u v → u ∈ ord) ∨ v ∈ ord ∨ v ∈ (topoLoop g fuel ord tv).1 := by
  intro fuel
  induction fuel with
  | zero =>
    intro ord tv _ v _ hall
    refine Or.inl (fun u hu => ?_)
    rcases hall u hu with h | h
    · exact h
    · cases h
  | succ n ih =>
    intro ord tv hfin v hne hall
    cases tv with
    | nil =>
      rw [topoLoop] at hall ⊢
      refine Or.inl (fun u hu => ?_)
      rcases hall u hu with h | h
      · exact h
      · cases h
    | cons nix rest =>
      by_cases hmem : nix ∈ ord
      · rw [topoLoop, if_pos hmem] at hfin hall ⊢
        exact ih ord rest hfin v hne hall
      · rw [topoLoop, if_neg hmem] at hfin hall ⊢
        have hall2 : ∀ u, adj g u v → u ∈ insert nix ord ∨
            u ∈ (topoLoop g n (insert nix ord)
              (Topo.pushes g (insert nix ord) nix ++ rest)).1 := by
          intro u hu
          rcases hall u hu with h | h
          · exact Or.inl (Finset.mem_insert_of_mem h)
          · rcases List.mem_cons.mp h with rfl | h
            · exact Or.inl (Finset.mem_insert_self _ _)
            · exact Or.inr h
        rcases ih _ _ hfin v hne hall2 with hord2 | hv | hv
        · by_cases hadjx : adj g nix v
          · have hvp : v ∈ Topo.pushes g (insert nix ord) nix :=
              (mem_topo_pushes_iff g _ nix v).mpr ⟨hadjx, hord2⟩
            have := topoLoop_absorb g n _ _ hfin v
              (List.mem_append.mpr (Or.inl hvp))
            rcases this with hord | hres
            · rcases Finset.mem_insert.mp hord with rfl | hord
              · exact Or.inr (Or.inr (List.mem_cons_self _ _))
              · exact Or.inr (Or.inl hord)
            · exact Or.inr (Or.inr (List.mem_cons_of_mem _ hres))
          · refine Or.inl (fun u hu => ?_)
            rcases Finset.mem_insert.mp (hord2 u hu) with rfl | h
            · exact absurd hu hadjx
            · exact h
        · rcases Finset.mem_insert.mp hv with rfl | hv
          · exact Or.inr (Or.inr (List.mem_cons_self _ _))
          · exact Or.inr (Or.inl hv)
        · exact Or.inr (Or.inr (List.mem_cons_of_mem _ hv))

lemma topoLoop_range (g : SGraph) (hwf : g.WF) :
    ∀ (fuel : Nat) (ord : Finset Nat) (tv : List Nat),
      (∀ x ∈ tv, x < g.n) →
      ∀ x ∈ (topoLoop g fuel ord tv).1, x < g.n := by
  intro fuel
  induction fuel with
  | zero => intro ord tv _ x hx; cases hx
  | succ n ih =>
    intro ord tv htv x hx
    cases tv with
    | nil => cases hx
    | cons nix rest =>
      by_cases hmem : nix ∈ ord
      · rw [topoLoop, if_pos hmem] at hx
        exact ih ord rest (fun y hy => htv y (List.mem_cons_of_mem _ hy)) x hx
      · rw [topoLoop, if_neg hmem] at hx
        rcases List.mem_cons.mp hx with rfl | hx
        · exact htv x (List.mem_cons_self _ _)
        · refine ih _ _ ?_ x hx
          intro y hy
          rcases List.mem_append.mp hy with hy | hy
          · have := ((mem_topo_pushes_iff g _ nix y).mp hy).1
            exact (hwf _ this).2
          · exact htv y (List.mem_cons_of_mem _ hy)

lemma topoLoop_drain (g : SGraph) :
    ∀ (fuel : Nat) (ord : Finset Nat) (tv : List Nat),
      topoMeasure g ord tv < fuel → (topoLoop g fuel ord tv).2.2 = [] := by
  intro fuel
  induction fuel with
  | zero => intro ord tv h; cases h
  | succ n ih =>
    intro ord tv hm
    cases tv with
    | nil => rw [topoLoop]
    | cons nix rest =>
      by_cases hmem : nix ∈ ord
      · rw [topoLoop, if_pos hmem]
        refine ih ord rest ?_
        have hsub : (gUniv g ∪ rest.toFinset) \ ord ⊆
            (gUniv g ∪ (nix :: rest).toFinset) \ ord := by
          intro y hy
          obtain ⟨hy1, hy2⟩ := Finset.mem_sdiff.mp hy
          refine Finset.mem_sdiff.mpr ⟨?_, hy2⟩
          rcases Finset.mem_union.mp hy1 with h | h
          · exact Finset.mem_union_left _ h
          · exact Finset.mem_union_right _ (by
              rw [List.mem_toFinset] at h ⊢
              exact List.mem_cons_of_mem _ h)
        have hc := Finset.card_le_card hsub
        unfold topoMeasure at hm ⊢
        have := Nat.mul_le_mul_right (g.edges.length + 1) hc
        simp only [List.length_cons] at hm
        omega
      · rw [topoLoop, if_neg hmem]
        show (topoLoop g n (insert nix ord)
          (Topo.pushes g (insert nix ord) nix ++ rest)).2.2 = []
        refine ih _ _ ?_
        have hcard : ((gUniv g ∪ (Topo.pushes g (insert nix ord) nix
              ++ rest).toFinset) \ insert nix ord).card + 1 ≤
            ((gUniv g ∪ (nix :: rest).toFinset) \ ord).card := by
          have hnixA : nix ∈ (gUniv g ∪ (nix :: rest).toFinset) \ ord :=
            Finset.mem_sdiff.mpr ⟨Finset.mem_union_right _
              (List.mem_toFinset.mpr (List.mem_cons_self _ _)), hmem⟩
          have hsub : (gUniv g ∪ (Topo.pushes g (insert nix ord) nix
                ++ rest).toFinset) \ insert nix ord ⊆
              ((gUniv g ∪ (nix :: rest).toFinset) \ ord).erase nix := by
            intro y hy
            obtain ⟨hy1, hy2⟩ := Finset.mem_sdiff.mp hy
            have hyne : y ≠ nix := fun h => hy2 (h ▸ Finset.mem_insert_self _ _)
            refine Finset.mem_erase.mpr ⟨hyne, Finset.mem_sdiff.mpr ⟨?_,
              fun h => hy2 (Finset.mem_insert_of_mem h)⟩⟩
            rcases Finset.mem_union.mp hy1 with h | h
            · exact Finset.mem_union_left _ h
            · rw [List.mem_toFinset, List.mem_append] at h
              rcases h with h | h
              · exact Finset.mem_union_left _ (topo_pushes_subset_gUniv g _ nix y h)
              · exact Finset.mem_union_right _
                  (List.mem_toFinset.mpr (List.mem_cons_of_mem _ h))
          calc ((gUniv g ∪ (Topo.pushes g (insert nix ord) nix
                ++ rest).toFinset) \ insert nix ord).card + 1
              ≤ (((gUniv g ∪ (nix :: rest).toFinset) \ ord).erase nix).card + 1 :=
                Nat.add_le_add_right (Finset.card_le_card hsub) 1
            _ = ((gUniv g ∪ (nix :: rest).toFinset) \ ord).card := by
                rw [Finset.card_erase_of_mem hnixA]
                have := Finset.card_pos.mpr ⟨nix, hnixA⟩
                omega
        have hm2 : topoMeasure g (insert nix ord)
            (Topo.pushes g (insert nix ord) nix ++ rest)
            < topoMeasure g ord (nix :: rest) := by
          unfold topoMeasure
          have hlen : (Topo.pushes g (insert nix ord) nix ++ rest).length ≤
              g.edges.length + rest.length := by
            rw [List.length_append]
            exact Nat.add_le_add_right (topo_pushes_length_le g _ nix) _
          have hmul : (((gUniv g ∪ (Topo.pushes g (insert nix ord) nix
                ++ rest).toFinset) \ insert nix ord).card + 1) * (g.edges.length + 1)
              ≤ ((gUniv g ∪ (nix :: rest).toFinset) \ ord).card
                * (g.edges.length + 1) :=
            Nat.mul_le_mul_right _ hcard
          have hexp : (((gUniv g ∪ (Topo.pushes g (insert nix ord) nix
                ++ rest).toFinset) \ insert nix ord).card + 1) * (g.edges.length + 1)
              = ((gUniv g ∪ (Topo.pushes g (insert nix ord) nix
                ++ rest).toFinset) \ insert nix ord).card * (g.edges.length + 1)
                + g.edges.length + 1 := by ring
          simp only [List.length_cons]
          omega
        omega

/-! ### Toposort: permutation, precedence, acyclicity criterion -/

/-- The initial worklist of the toposort pass (the sources). -/
def topoInit (g : SGraph) : List Nat := (g.externals .Incoming).reverse

lemma toposort_def (g : SGraph) :
    toposort g = (topoLoop g (topoFuel g) ∅ (topoInit g)).1 := rfl

lemma toposort_final_nil (g : SGraph) :
    (topoLoop g (topoFuel g) ∅ (topoInit g)).2.2 = [] :=
  topoLoop_drain g _ _ _ (Nat.lt_succ_self _)

lemma topoInit_mem_iff (g : SGraph) (x : Nat) :
    x ∈ topoInit g ↔ x < g.n ∧ ∀ b, ¬ adj g b x := by
  rw [topoInit, List.mem_reverse]
  exact mem_externals_incoming_iff g x

lemma toposort_nodup (g : SGraph) : (toposort g).Nodup :=
  (topoLoop_basic g _ _ _).1

lemma toposort_range (g : SGraph) (hwf : g.WF) : ∀ x ∈ toposort g, x < g.n := by
  refine topoLoop_range g hwf _ _ _ ?_
  intro x hx
  exact ((topoInit_mem_iff g x).mp hx).1

lemma toposort_prec (g : SGraph) (l1 : List Nat) (v : Nat) (l2 : List Nat)
    (heq : toposort g = l1 ++ v :: l2) : ∀ u, adj g u v → u ∈ l1 := by
  intro u hu
  have hI : ∀ x ∈ topoInit g, ∀ w, adj g w x → w ∈ (∅ : Finset Nat) := by
    intro x hx w hw
    exact absurd hw (((topoInit_mem_iff g x).mp hx).2 w)
  rcases topoLoop_prec g (topoFuel g) ∅ (topoInit g) hI l1 v l2 heq u hu with h | h
  · exact absurd h (Finset.not_mem_empty u)
  · exact h

lemma toposort_closure (g : SGraph) (v : Nat) (hne : ∃ u, adj g u v)
    (hall : ∀ u, adj g u v → u ∈ toposort g) : v ∈ toposort g := by
  have hall2 : ∀ u, adj g u v → u ∈ (∅ : Finset Nat) ∨
      u ∈ (topoLoop g (topoFuel g) ∅ (topoInit g)).1 :=
    fun u hu => Or.inr (hall u hu)
  rcases topoLoop_closure g (topoFuel g) ∅ (topoInit g) (toposort_final_nil g)
      v hne hall2 with h | h | h
  · obtain ⟨u, hu⟩ := hne
    exact absurd (h u hu) (Finset.not_mem_empty u)
  · exact absurd h (Finset.not_mem_empty v)
  · exact h

lemma toposort_mem_of_no_incoming (g : SGraph) (v : Nat) (hv : v < g.n)
    (hno : ∀ u, ¬ adj g u v) : v ∈ toposort g := by
  have hvi : v ∈ topoInit g := (topoInit_mem_iff g v).mpr ⟨hv, hno⟩
  rcases topoLoop_absorb g _ _ _ (toposort_final_nil g) v hvi with h | h
  · exact absurd h (Finset.not_mem_empty v)
  · exact h

lemma toposort_complete (g : SGraph) (hwf : g.WF) (hacyc : ¬ CyclicDir g) :
    ∀ v, v < g.n → v ∈ toposort g := by
  by_contra hcon
  push_neg at hcon
  obtain ⟨v0, hv0n, hv0⟩ := hcon
  classical
  set S : Finset Nat := (Finset.range g.n).filter (fun v => v ∉ toposort g) with hS
  have hv0S : v0 ∈ S := by
    rw [hS]
    exact Finset.mem_filter.mpr ⟨Finset.mem_range.mpr hv0n, hv0⟩
  have hstep : ∀ s ∈ S, ∃ u, u ∈ S ∧ adj g u s := by
    intro s hs
    obtain ⟨hsn, hsout⟩ := Finset.mem_filter.mp hs
    rw [Finset.mem_range] at hsn
    by_cases hinc : ∃ u, adj g u s
    · by_contra hnou
      push_neg at hnou
      have hall : ∀ u, adj g u s → u ∈ toposort g := by
        intro u hu
        have hun : u < g.n := (hwf _ hu).1
        by_contra hus
        exact hnou u (Finset.mem_filter.mpr ⟨Finset.mem_range.mpr hun, hus⟩) hu
      exact hsout (toposort_closure g s hinc hall)
    · push_neg at hinc
      exact absurd (toposort_mem_of_no_incoming g s hsn hinc) hsout
  choose f hf1 hf2 using hstep
  let F : {x // x ∈ S} → {x // x ∈ S} := fun p => ⟨f p.1 p.2, hf1 p.1 p.2⟩
  let seq : Nat → {x // x ∈ S} := fun k => F^[k] ⟨v0, hv0S⟩
  have hadj : ∀ k, adj g (seq (k + 1)).1 (seq k).1 := by
    intro k
    have hit : seq (k + 1) = F (seq k) := Function.iterate_succ_apply' F k _
    rw [hit]
    exact hf2 _ _
  have hchain : ∀ i m, Relation.TransGen (adj g) (seq (i + m + 1)).1 (seq i).1 := by
    intro i m
    induction m with
    | zero => simpa using Relation.TransGen.single (hadj i)
    | succ m ih =>
      have harith : i + (m + 1) + 1 = (i + m + 1) + 1 := by omega
      rw [harith]
      exact Relation.TransGen.head (hadj (i + m + 1)) ih
  obtain ⟨i, j, hne, heq⟩ := Finite.exists_ne_map_eq_of_infinite seq
  rcases Nat.lt_or_ge i j with hij | hij
  · have hj : j = i + (j - i - 1) + 1 := by omega
    have hc := hchain i (j - i - 1)
    rw [← hj, heq] at hc
    exact hacyc ⟨(seq j).1, hc⟩
  · have hij2 : j < i := by omega
    have hi : i = j + (i - j - 1) + 1 := by omega
    have hc := hchain j (i - j - 1)
    rw [← hi, ← heq] at hc
    exact hacyc ⟨(seq i).1, hc⟩

lemma toposort_perm (g : SGraph) (hwf : g.WF) (hacyc : ¬ CyclicDir g) :
    (toposort g).Perm (List.range g.n) := by
  refine List.perm_of_nodup_nodup_toFinset_eq (toposort_nodup g)
    (List.nodup_range _) ?_
  ext x
  simp only [List.mem_toFinset, List.mem_range]
  exact ⟨fun h => toposort_range g hwf x h,
    fun h => toposort_complete g hwf hacyc x h⟩

lemma toposort_edge_indexOf (g : SGraph) (u v : Nat) (hu : adj g u v)
    (hv : v ∈ toposort g) :
    u ∈ toposort g ∧ (toposort g).indexOf u < (toposort g).indexOf v := by
  obtain ⟨l1, l2, heq⟩ := List.append_of_mem hv
  have hndl : (toposort g).Nodup := toposort_nodup g
  have hul1 : u ∈ l1 := toposort_prec g l1 v l2 heq u hu
  have hvl1 : v ∉ l1 := by
    rw [heq] at hndl
    obtain ⟨_, _, hdisj⟩ := List.nodup_append.mp hndl
    exact fun hmem => hdisj hmem (List.mem_cons_self _ _)
  constructor
  · rw [heq]
    exact List.mem_append.mpr (Or.inl hul1)
  · rw [heq, List.indexOf_append_of_mem hul1, List.indexOf_append_of_not_mem hvl1,
      List.indexOf_cons_self]
    have := List.indexOf_lt_length.mpr hul1
    omega

lemma toposort_acyclic_of_complete (g : SGraph) (hwf : g.WF)
    (hcompl : ∀ v, v < g.n → v ∈ toposort g) : ¬ CyclicDir g := by
  rintro ⟨v, hcyc⟩
  have hrank : ∀ a b, Relation.TransGen (adj g) a b → b ∈ toposort g →
      a ∈ toposort g ∧ (toposort g).indexOf a < (toposort g).indexOf b := by
    intro a b htg
    induction htg with
    | single h => exact fun hb => toposort_edge_indexOf g _ _ h hb
    | tail hab hbc ih =>
      intro hc
      obtain ⟨hb, hlt⟩ := toposort_edge_indexOf g _ _ hbc hc
      obtain ⟨ha, hlt2⟩ := ih hb
      exact ⟨ha, Nat.lt_trans hlt2 hlt⟩
  have hvn : v < g.n := by
    cases hcyc with
    | single h => exact (hwf _ h).2
    | tail h1 h2 => exact (hwf _ h2).2
  have hvmem : v ∈ toposort g := hcompl v hvn
  obtain ⟨_, hlt⟩ := hrank v v hcyc hvmem
  exact absurd hlt (lt_irrefl _)

lemma toposort_length_le (g : SGraph) (hwf : g.WF) : (toposort g).length ≤ g.n := by
  have h1 : (toposort g).toFinset.card = (toposort g).length :=
    List.toFinset_card_of_nodup (toposort_nodup g)
  have h2 : (toposort g).toFinset ⊆ Finset.range g.n := by
    intro x hx
    rw [List.mem_toFinset] at hx
    exact Finset.mem_range.mpr (toposort_range g hwf x hx)
  have h3 := Finset.card_le_card h2
  rw [h1, Finset.card_range] at h3
  exact h3

lemma toposort_length_iff (g : SGraph) (hwf : g.WF) :
    (toposort g).length = g.n ↔ ¬ CyclicDir g := by
  constructor
  · intro hlen
    refine toposort_acyclic_of_complete g hwf ?_
    intro v hv
    have h1 : (toposort g).toFinset.card = g.n := by
      rw [List.toFinset_card_of_nodup (toposort_nodup g), hlen]
    have h2 : (toposort g).toFinset ⊆ Finset.range g.n := by
      intro x hx
      rw [List.mem_toFinset] at hx
      exact Finset.mem_range.mpr (toposort_range g hwf x hx)
    have h3 : (toposort g).toFinset = Finset.range g.n :=
      Finset.eq_of_subset_of_card_le h2 (by rw [h1, Finset.card_range])
    rw [← List.mem_toFinset, h3]
    exact Finset.mem_range.mpr hv
  · intro hacyc
    rw [(toposort_perm g hwf hacyc).length_eq, List.length_range]

/-! ### Full traversals from a start node (the callers' while-let loops) -/

/-- Fuel draining a DFS from `start`. -/
def dfsFuel (g : SGraph) (start : Nat) : Nat :=
  dfsMeasure (gUniv g) (Dfs.new g start) + 1

/-- The sequence of nodes produced by repeated Dfs::next calls on
Dfs::new(g, start). -/
def dfsTraverse (g : SGraph) (start : Nat) : List Nat :=
  (dfsRun g.neighbors (dfsFuel g start) (Dfs.new g start)).1

/-- Fuel draining a BFS from `start`. -/
def bfsFuel (g : SGraph) (start : Nat) : Nat :=
  bfsMeasure (gUniv g) (Bfs.new g start) + 1

/-- The sequence of nodes produced by repeated Bfs::next calls on
Bfs::new(g, start). -/
def bfsTraverse (g : SGraph) (start : Nat) : List Nat :=
  (bfsRun g.neighbors (bfsFuel g start) (Bfs.new g start)).1

lemma Dfs.new_stack (g : SGraph) (s : Nat) : (Dfs.new g s).stack = [s] := rfl

lemma Dfs.new_disc (g : SGraph) (s : Nat) :
    (Dfs.new g s).discovered = {s} := rfl

lemma Bfs.new_queue (g : SGraph) (s : Nat) : (Bfs.new g s).stack = [s] := rfl

lemma Bfs.new_discovered (g : SGraph) (s : Nat) :
    (Bfs.new g s).discovered = {s} := rfl

lemma dfsTraverse_drained (g : SGraph) (start : Nat) :
    (dfsRun g.neighbors (dfsFuel g start) (Dfs.new g start)).2.stack = [] :=
  dfsRun_drain g.neighbors (gUniv g) (fun x => neighbors_subset_gUniv g x) _ _
    (Nat.lt_succ_self _)

lemma bfsTraverse_drained (g : SGraph) (start : Nat) :
    (bfsRun g.neighbors (bfsFuel g start) (Bfs.new g start)).2.stack = [] :=
  bfsRun_drain g.neighbors (gUniv g) (fun x => neighbors_subset_gUniv g x) _ _
    (Nat.lt_succ_self _)

lemma dfsTraverse_mem_iff (g : SGraph) (start : Nat) (x : Nat) :
    x ∈ dfsTraverse g start ↔ Reach g start x := by
  have hstart : start ∈ dfsTraverse g start := by
    refine dfsRun_all g.neighbors _ _ (dfsTraverse_drained g start) start ?_
    rw [Dfs.new_stack]
    exact List.mem_cons_self _ _
  constructor
  · intro hx
    refine dfsRun_sound g.neighbors (Reach g start) ?_ _ _ ?_ x hx
    · intro a b ha hb
      exact Relation.ReflTransGen.tail ha ((mem_neighbors_iff g a b).mp hb)
    · intro y hy
      rw [Dfs.new_stack] at hy
      rcases List.mem_cons.mp hy with rfl | hy
      · exact Relation.ReflTransGen.refl
      · cases hy
  · intro hx
    induction hx with
    | refl => exact hstart
    | tail hab hbc ih =>
      rcases dfsRun_comp g.neighbors _ _ (dfsTraverse_drained g start) _ ih _
          ((mem_neighbors_iff g _ _).mpr hbc) with h | h
      · exact h
      · rw [Dfs.new_disc] at h
        rw [Finset.mem_singleton.mp h]
        exact hstart

lemma bfsTraverse_mem_iff (g : SGraph) (start : Nat) (x : Nat) :
    x ∈ bfsTraverse g start ↔ Reach g start x := by
  have hstart : start ∈ bfsTraverse g start := by
    refine bfsRun_all g.neighbors _ _ (bfsTraverse_drained g start) start ?_
    rw [Bfs.new_queue]
    exact List.mem_cons_self _ _
  constructor
  · intro hx
    refine bfsRun_sound g.neighbors (Reach g start) ?_ _ _ ?_ x hx
    · intro a b ha hb
      exact Relation.ReflTransGen.tail ha ((mem_neighbors_iff g a b).mp hb)
    · intro y hy
      rw [Bfs.new_queue] at hy
      rcases List.mem_cons.mp hy with rfl | hy
      · exact Relation.ReflTransGen.refl
      · cases hy
  · intro hx
    induction hx with
    | refl => exact hstart
    | tail hab hbc ih =>
      rcases bfsRun_comp g.neighbors _ _ (bfsTraverse_drained g start) _ ih _
          ((mem_neighbors_iff g _ _).mpr hbc) with h | h
      · exact h
      · rw [Bfs.new_discovered] at h
        rw [Finset.mem_singleton.mp h]
        exact hstart

lemma dfsTraverse_nodup (g : SGraph) (start : Nat) :
    (dfsTraverse g start).Nodup := by
  refine dfsRun_nodup g.neighbors _ _ ?_ ?_
  · intro x hx
    rw [Dfs.new_stack] at hx
    rw [Dfs.new_disc]
    rcases List.mem_cons.mp hx with rfl | hx
    · exact Finset.mem_singleton_self _
    · cases hx
  · rw [Dfs.new_stack]
    exact List.nodup_singleton _

lemma bfsTraverse_nodup (g : SGraph) (start : Nat) :
    (bfsTraverse g start).Nodup := by
  refine bfsRun_nodup g.neighbors _ _ ?_ ?_
  · intro x hx
    rw [Bfs.new_queue] at hx
    rw [Bfs.new_discovered]
    rcases List.mem_cons.mp hx with rfl | hx
    · exact Finset.mem_singleton_self _
    · cases hx
  · rw [Bfs.new_queue]
    exact List.nodup_singleton _

/-! ## The disjoint-set collaborator -/

/-- Modelled from the spec: the union-find utility (unionfind.rs is outside
src/).  Sections 3 and 6 of the spec give its contract: a partition of the
dense indices 0..n where new(n) makes singletons, union(a,b) reports whether
the two indices were previously in different classes and merges them, find
returns a unique representative per class, and into_labeling returns the
label of every element.  Path compression is an optimization invisible in
that contract, so the model keeps every label fully compressed: entry i
stores the representative of i directly. -/
structure UnionFind where
  labels : List Nat
deriving DecidableEq

namespace UnionFind

/-- new(n): n singleton classes. -/
def new (n : Nat) : UnionFind := ⟨List.range n⟩

/-- find: the representative of a (identity outside the carrier). -/
def find (uf : UnionFind) (a : Nat) : Nat := uf.labels.getD a a

/-- union(a, b): false iff a and b were already in the same class; otherwise
merge b's class into a's and report true. -/
def union (uf : UnionFind) (a b : Nat) : Bool × UnionFind :=
  let ra := uf.find a
  let rb := uf.find b
  if ra = rb then (false, uf)
  else (true, ⟨uf.labels.map (fun l => if l = rb then ra else l)⟩)

/-- into_labeling: the label of every element. -/
def into_labeling (uf : UnionFind) : List Nat := uf.labels

end UnionFind

/-- Run union over a list of index pairs, keeping the final state. -/
def unionPairs (uf : UnionFind) : List (Nat × Nat) → UnionFind
  | [] => uf
  | e :: rest => unionPairs (uf.union e.1 e.2).2 rest

lemma UnionFind.new_length (n : Nat) : (UnionFind.new n).labels.length = n := by
  simp [UnionFind.new]

lemma UnionFind.union_length (uf : UnionFind) (a b : Nat) :
    (uf.union a b).2.labels.length = uf.labels.length := by
  unfold UnionFind.union
  by_cases h : uf.find a = uf.find b <;> simp [h]

lemma unionPairs_length (es : List (Nat × Nat)) :
    ∀ uf : UnionFind, (unionPairs uf es).labels.length = uf.labels.length := by
  induction es with
  | nil => intro uf; rfl
  | cons e rest ih =>
    intro uf
    rw [unionPairs, ih, UnionFind.union_length]

lemma UnionFind.union_fst_iff (uf : UnionFind) (a b : Nat) :
    (uf.union a b).1 = true ↔ ¬ uf.find a = uf.find b := by
  unfold UnionFind.union
  by_cases h : uf.find a = uf.find b <;> simp [h]

lemma UnionFind.union_snd_of_eq {uf : UnionFind} {a b : Nat}
    (h : uf.find a = uf.find b) : (uf.union a b).2 = uf := by
  unfold UnionFind.union
  simp [h]

lemma UnionFind.union_snd_labels_of_ne {uf : UnionFind} {a b : Nat}
    (h : ¬ uf.find a = uf.find b) :
    (uf.union a b).2.labels =
      uf.labels.map (fun l => if l = uf.find b then uf.find a else l) := by
  unfold UnionFind.union
  simp [h]

lemma UnionFind.find_eq_getElem {uf : UnionFind} {x : Nat}
    (hx : x < uf.labels.length) : uf.find x = uf.labels[x] := by
  unfold UnionFind.find
  exact List.getD_eq_getElem uf.labels x hx

/-- After a merging union, the find of an in-range element is redirected. -/
lemma UnionFind.union_find_of_ne {uf : UnionFind} {a b : Nat}
    (h : ¬ uf.find a = uf.find b) {x : Nat} (hx : x < uf.labels.length) :
    (uf.union a b).2.find x =
      (if uf.find x = uf.find b then uf.find a else uf.find x) := by
  have hx2 : x < (uf.union a b).2.labels.length := by
    rw [UnionFind.union_length]; exact hx
  have hmap : x < (uf.labels.map
      (fun l => if l = uf.find b then uf.find a else l)).length := by
    rw [List.length_map]; exact hx
  rw [UnionFind.find_eq_getElem hx2]
  have hlab := UnionFind.union_snd_labels_of_ne h
  have hstep : (uf.union a b).2.labels[x] =
      (uf.labels.map (fun l => if l = uf.find b then uf.find a else l)).get
        ⟨x, hmap⟩ := by
    rw [List.get_eq_getElem]
    congr 1
  rw [hstep, List.get_eq_getElem, List.getElem_map,
    ← UnionFind.find_eq_getElem hx]

/-- Equality of finds after a merging union, for in-range elements. -/
lemma UnionFind.union_find_eq_iff {uf : UnionFind} {a b : Nat}
    (h : ¬ uf.find a = uf.find b) {x y : Nat}
    (hx : x < uf.labels.length) (hy : y < uf.labels.length) :
    ((uf.union a b).2.find x = (uf.union a b).2.find y ↔
      (uf.find x = uf.find y ∨
        (uf.find x = uf.find a ∨ uf.find x = uf.find b) ∧
        (uf.find y = uf.find a ∨ uf.find y = uf.find b))) := by
  rw [UnionFind.union_find_of_ne h hx, UnionFind.union_find_of_ne h hy]
  by_cases hxb : uf.find x = uf.find b <;> by_cases hyb : uf.find y = uf.find b
  · simp only [if_pos hxb, if_pos hyb]
    simp [hxb, hyb]
  · simp only [if_pos hxb, if_neg hyb]
    constructor
    · intro h2
      exact Or.inr ⟨Or.inr hxb, Or.inl h2.symm⟩
    · rintro (h2 | ⟨hx2, hy2 | hy2⟩)
      · rw [hxb] at h2
        exact absurd h2.symm hyb
      · exact hy2.symm
      · exact absurd hy2 hyb
  · simp only [if_neg hxb, if_pos hyb]
    constructor
    · intro h2
      exact Or.inr ⟨Or.inl h2, Or.inr hyb⟩
    · rintro (h2 | ⟨hx2 | hx2, hy2⟩)
      · rw [hyb] at h2
        exact absurd h2 hxb
      · exact hx2
      · exact absurd hx2 hxb
  · simp only [if_neg hxb, if_neg hyb]
    constructor
    · exact fun h2 => Or.inl h2
    · rintro (h2 | ⟨hx2 | hx2, hy2 | hy2⟩)
      · exact h2
      · exact hx2.trans hy2.symm
      · exact absurd hy2 hyb
      · exact absurd hx2 hxb
      · exact absurd hx2 hxb

/-! ### Union-find computes undirected connectivity -/

/-- Connectivity generated by an edge list, ignoring direction. -/
def RL (es : List (Nat × Nat)) (x y : Nat) : Prop :=
  Relation.ReflTransGen (uadjL es) x y

lemma uadjL_symm (es : List (Nat × Nat)) : Symmetric (uadjL es) := by
  intro x y h
  rcases h with h | h
  · exact Or.inr h
  · exact Or.inl h

lemma RL_symm {es : List (Nat × Nat)} {x y : Nat} (h : RL es x y) : RL es y x :=
  (Relation.ReflTransGen.symmetric (uadjL_symm es)) h

lemma RL_mono {es es2 : List (Nat × Nat)} (hsub : ∀ e ∈ es, e ∈ es2)
    {x y : Nat} (h : RL es x y) : RL es2 x y := by
  refine Relation.ReflTransGen.mono ?_ h
  intro a b hab
  rcases hab with hab | hab
  · exact Or.inl (hsub _ hab)
  · exact Or.inr (hsub _ hab)

lemma RL_nil_iff (x y : Nat) : RL [] x y ↔ x = y := by
  constructor
  · intro h
    induction h with
    | refl => rfl
    | tail _ hstep _ => rcases hstep with h | h <;> cases h
  · rintro rfl
    exact Relation.ReflTransGen.refl

lemma RL_of_mem {es : List (Nat × Nat)} {e : Nat × Nat} (he : e ∈ es) :
    RL es e.1 e.2 :=
  Relation.ReflTransGen.single (Or.inl (by cases e; exact he))

lemma RL_append_singleton_iff (pre : List (Nat × Nat)) (p q x y : Nat) :
    RL (pre ++ [(p, q)]) x y ↔
      RL pre x y ∨ (RL pre x p ∧ RL pre q y) ∨ (RL pre x q ∧ RL pre p y) := by
  constructor
  · intro h
    induction h with
    | refl => exact Or.inl Relation.ReflTransGen.refl
    | tail hxc hcy ih =>
      rcases hcy with hcy | hcy
      · rcases List.mem_append.mp hcy with hpre | hsing
        · rcases ih with h1 | ⟨h1, h2⟩ | ⟨h1, h2⟩
          · exact Or.inl (h1.tail (Or.inl hpre))
          · exact Or.inr (Or.inl ⟨h1, h2.tail (Or.inl hpre)⟩)
          · exact Or.inr (Or.inr ⟨h1, h2.tail (Or.inl hpre)⟩)
        · obtain ⟨hc, hy⟩ := Prod.ext_iff.mp (List.mem_singleton.mp hsing)
          subst hc
          subst hy
          rcases ih with h1 | ⟨h1, h2⟩ | ⟨h1, h2⟩
          · exact Or.inr (Or.inl ⟨h1, Relation.ReflTransGen.refl⟩)
          · exact Or.inr (Or.inl ⟨h1, Relation.ReflTransGen.refl⟩)
          · exact Or.inl h1
      · rcases List.mem_append.mp hcy with hpre | hsing
        · rcases ih with h1 | ⟨h1, h2⟩ | ⟨h1, h2⟩
          · exact Or.inl (h1.tail (Or.inr hpre))
          · exact Or.inr (Or.inl ⟨h1, h2.tail (Or.inr hpre)⟩)
          · exact Or.inr (Or.inr ⟨h1, h2.tail (Or.inr hpre)⟩)
        · obtain ⟨hy, hc⟩ := Prod.ext_iff.mp (List.mem_singleton.mp hsing)
          subst hc
          subst hy
          rcases ih with h1 | ⟨h1, h2⟩ | ⟨h1, h2⟩
          · exact Or.inr (Or.inr ⟨h1, Relation.ReflTransGen.refl⟩)
          · exact Or.inl h1
          · exact Or.inr (Or.inr ⟨h1, Relation.ReflTransGen.refl⟩)
  · have hstep : RL (pre ++ [(p, q)]) p q :=
      Relation.ReflTransGen.single (Or.inl (List.mem_append.mpr
        (Or.inr (List.mem_singleton_self _))))
    have hmono : ∀ {x y : Nat}, RL pre x y → RL (pre ++ [(p, q)]) x y :=
      fun h => RL_mono (fun e he => List.mem_append.mpr (Or.inl he)) h
    rintro (h | ⟨h1, h2⟩ | ⟨h1, h2⟩)
    · exact hmono h
    · exact ((hmono h1).trans hstep).trans (hmono h2)
    · exact ((hmono h1).trans (RL_symm hstep)).trans (hmono h2)

lemma UnionFind.new_find {n x : Nat} (hx : x < n) :
    (UnionFind.new n).find x = x := by
  unfold UnionFind.new UnionFind.find
  rw [List.getD_eq_getElem _ _ (by simpa using hx)]
  simp

lemma unionPairs_find_iff_aux (n : Nat) :
    ∀ (es pre : List (Nat × Nat)) (uf : UnionFind),
      uf.labels.length = n →
      (∀ e ∈ es, e.1 < n ∧ e.2 < n) →
      (∀ x y, x < n → y < n → (uf.find x = uf.find y ↔ RL pre x y)) →
      ∀ x y, x < n → y < n →
        ((unionPairs uf es).find x = (unionPairs uf es).find y ↔
          RL (pre ++ es) x y) := by
  intro es
  induction es with
  | nil =>
    intro pre uf hlen hwf hiff x y hx hy
    simpa using hiff x y hx hy
  | cons e rest ih =>
    intro pre uf hlen hwf hiff x y hx hy
    have he1 : e.1 < n := (hwf e (List.mem_cons_self _ _)).1
    have he2 : e.2 < n := (hwf e (List.mem_cons_self _ _)).2
    have hiff2 : ∀ x y, x < n → y < n →
        ((uf.union e.1 e.2).2.find x = (uf.union e.1 e.2).2.find y ↔
          RL (pre ++ [(e.1, e.2)]) x y) := by
      intro x y hx hy
      by_cases hfe : uf.find e.1 = uf.find e.2
      · rw [UnionFind.union_snd_of_eq hfe, hiff x y hx hy,
          RL_append_singleton_iff]
        have hpq : RL pre e.1 e.2 := (hiff e.1 e.2 he1 he2).mp hfe
        constructor
        · exact Or.inl
        · rintro (h | ⟨h1, h2⟩ | ⟨h1, h2⟩)
          · exact h
          · exact h1.trans (hpq.trans h2)
          · exact h1.trans ((RL_symm hpq).trans h2)
      · rw [UnionFind.union_find_eq_iff hfe (by rw [hlen]; exact hx)
          (by rw [hlen]; exact hy), RL_append_singleton_iff,
          hiff x y hx hy, hiff x e.1 hx he1, hiff x e.2 hx he2,
          hiff y e.1 hy he1, hiff y e.2 hy he2]
        constructor
        · rintro (h | ⟨h1 | h1, h2 | h2⟩)
          · exact Or.inl h
          · exact Or.inl (h1.trans (RL_symm h2))
          · exact Or.inr (Or.inl ⟨h1, RL_symm h2⟩)
          · exact Or.inr (Or.inr ⟨h1, RL_symm h2⟩)
          · exact Or.inl (h1.trans (RL_symm h2))
        · rintro (h | ⟨h1, h2⟩ | ⟨h1, h2⟩)
          · exact Or.inl h
          · exact Or.inr ⟨Or.inl h1, Or.inr (RL_symm h2)⟩
          · exact Or.inr ⟨Or.inr h1, Or.inl (RL_symm h2)⟩
    have hres := ih (pre ++ [(e.1, e.2)]) (uf.union e.1 e.2).2
      (by rw [UnionFind.union_length, hlen])
      (fun e2 he2m => hwf e2 (List.mem_cons_of_mem _ he2m)) hiff2 x y hx hy
    rw [unionPairs]
    rw [List.append_assoc, List.singleton_append] at hres
    have hee : (e.1, e.2) = e := rfl
    rw [hee] at hres
    exact hres

/-- The central connectivity theorem for the disjoint-set structure: after
unioning all pairs of an in-range edge list, two in-range indices have the
same representative exactly when they are connected ignoring direction. -/
theorem unionPairs_find_iff (n : Nat) (es : List (Nat × Nat))
    (hwf : ∀ e ∈ es, e.1 < n ∧ e.2 < n) (a b : Nat) (ha : a < n) (hb : b < n) :
    ((unionPairs (UnionFind.new n) es).find a
      = (unionPairs (UnionFind.new n) es).find b ↔ RL es a b) := by
  have hbase : ∀ x y, x < n → y < n →
      ((UnionFind.new n).find x = (UnionFind.new n).find y ↔ RL [] x y) := by
    intro x y hx hy
    rw [UnionFind.new_find hx, UnionFind.new_find hy, RL_nil_iff]
  simpa using unionPairs_find_iff_aux n es [] (UnionFind.new n)
    (UnionFind.new_length n) hwf hbase a b ha hb

/-! ## Sorting and consecutive dedup (Vec::sort, Vec::dedup, the heap order) -/

/-- Insert one element into a sorted list. -/
def insertLe {α : Type} (le : α → α → Bool) (x : α) : List α → List α
  | [] => [x]
  | y :: ys => if le x y then x :: y :: ys else y :: insertLe le x ys

/-- Modelled from the spec: a deterministic ascending ordering — Vec::sort
for the labeling in connected_components, and the BinaryHeap/MinScored
extraction order for Kruskal (scored.rs and the heap are outside src/; the
spec only fixes that the least weight is always extracted first). -/
def insSortBy {α : Type} (le : α → α → Bool) : List α → List α
  | [] => []
  | x :: xs => insertLe le x (insSortBy le xs)

lemma insertLe_perm {α : Type} (le : α → α → Bool) (x : α) (l : List α) :
    (insertLe le x l).Perm (x :: l) := by
  induction l with
  | nil => exact List.Perm.refl _
  | cons y ys ih =>
    rw [insertLe]
    by_cases h : le x y
    · rw [if_pos h]
    · rw [if_neg h]
      exact (ih.cons y).trans (List.Perm.swap x y ys)

lemma insSortBy_perm {α : Type} (le : α → α → Bool) (l : List α) :
    (insSortBy le l).Perm l := by
  induction l with
  | nil => exact List.Perm.refl _
  | cons x xs ih => exact (insertLe_perm le x _).trans (ih.cons x)

/-- The boolean ascending comparison on naturals. -/
def nble (a b : Nat) : Bool := decide (a ≤ b)

lemma insertLe_sorted_nat (x : Nat) (l : List Nat)
    (hs : l.Sorted (fun a b => a ≤ b)) :
    (insertLe nble x l).Sorted (fun a b => a ≤ b) := by
  induction l with
  | nil => exact List.sorted_singleton x
  | cons y ys ih =>
    obtain ⟨hy, hys⟩ := List.sorted_cons.mp hs
    rw [insertLe]
    by_cases h : nble x y
    · rw [if_pos h]
      have hxy : x ≤ y := by simpa [nble] using h
      refine List.sorted_cons.mpr ⟨?_, hs⟩
      intro b hb
      rcases List.mem_cons.mp hb with rfl | hb
      · exact hxy
      · exact Nat.le_trans hxy (hy b hb)
    · rw [if_neg h]
      have hyx : y ≤ x := by
        have : ¬ x ≤ y := by simpa [nble] using h
        omega
      refine List.sorted_cons.mpr ⟨?_, ih hys⟩
      intro b hb
      have := (insertLe_perm nble x ys).mem_iff.mp hb
      rcases List.mem_cons.mp this with rfl | hb2
      · exact hyx
      · exact hy b hb2

lemma insSortBy_sorted_nat (l : List Nat) :
    (insSortBy nble l).Sorted (fun a b => a ≤ b) := by
  induction l with
  | nil => exact List.sorted_nil
  | cons x xs ih => exact insertLe_sorted_nat x _ ih

/-- The tail scan of Vec::dedup, carrying the last kept element. -/
def dedupGo (prev : Nat) : List Nat → List Nat
  | [] => []
  | b :: rest => if prev = b then dedupGo prev rest else b :: dedupGo b rest

/-- Vec::dedup: drop consecutive repeated elements. -/
def dedupC : List Nat → List Nat
  | [] => []
  | a :: rest => a :: dedupGo a rest

lemma dedupGo_mem (prev : Nat) (l : List Nat)
    (hs : (prev :: l).Sorted (fun a b => a ≤ b)) :
    ∀ y, y ∈ dedupGo prev l ↔ (y ∈ l ∧ y ≠ prev) := by
  induction l generalizing prev with
  | nil => intro y; simp [dedupGo]
  | cons b rest ih =>
    intro y
    obtain ⟨hprevle, hbs⟩ := List.sorted_cons.mp hs
    obtain ⟨hble, hrests⟩ := List.sorted_cons.mp hbs
    rw [dedupGo]
    by_cases h : prev = b
    · subst h
      rw [if_pos rfl, ih prev hbs y]
      constructor
      · rintro ⟨hy, hne⟩
        exact ⟨List.mem_cons_of_mem _ hy, hne⟩
      · rintro ⟨hy, hne⟩
        rcases List.mem_cons.mp hy with rfl | hy
        · exact absurd rfl hne
        · exact ⟨hy, hne⟩
    · rw [if_neg h]
      have hlt : prev < b :=
        Nat.lt_of_le_of_ne (hprevle b (List.mem_cons_self _ _)) h
      rw [List.mem_cons, ih b hbs y]
      constructor
      · rintro (rfl | ⟨hy, hne⟩)
        · exact ⟨List.mem_cons_self _ _, fun hc => absurd hc.symm (Nat.ne_of_lt hlt)⟩
        · have : b ≤ y := hble y hy
          exact ⟨List.mem_cons_of_mem _ hy, by omega⟩
      · rintro ⟨hy, hne⟩
        rcases List.mem_cons.mp hy with rfl | hy
        · exact Or.inl rfl
        · by_cases hyb : y = b
          · exact Or.inl hyb
          · exact Or.inr ⟨hy, hyb⟩

lemma dedupGo_nodup (prev : Nat) (l : List Nat)
    (hs : (prev :: l).Sorted (fun a b => a ≤ b)) : (dedupGo prev l).Nodup := by
  induction l generalizing prev with
  | nil => exact List.nodup_nil
  | cons b rest ih =>
    obtain ⟨hprevle, hbs⟩ := List.sorted_cons.mp hs
    rw [dedupGo]
    by_cases h : prev = b
    · rw [if_pos h]
      subst h
      exact ih prev hbs
    · rw [if_neg h]
      refine List.nodup_cons.mpr ⟨?_, ih b hbs⟩
      intro hmem
      exact ((dedupGo_mem b rest hbs b).mp hmem).2 rfl

lemma dedupC_card (l : List Nat) (hs : l.Sorted (fun a b => a ≤ b)) :
    (dedupC l).length = l.toFinset.card := by
  cases l with
  | nil => simp [dedupC]
  | cons a rest =>
    have hnd : (dedupC (a :: rest)).Nodup := by
      rw [dedupC]
      refine List.nodup_cons.mpr ⟨?_, dedupGo_nodup a rest hs⟩
      intro hmem
      exact ((dedupGo_mem a rest hs a).mp hmem).2 rfl
    have hfs : (dedupC (a :: rest)).toFinset = (a :: rest).toFinset := by
      ext y
      rw [dedupC]
      simp only [List.mem_toFinset, List.mem_cons, dedupGo_mem a rest hs y]
      constructor
      · rintro (rfl | ⟨hy, _⟩)
        · exact Or.inl rfl
        · exact Or.inr hy
      · rintro (rfl | hy)
        · exact Or.inl rfl
        · by_cases hya : y = a
          · exact Or.inl hya
          · exact Or.inr ⟨hy, hya⟩
    rw [← List.toFinset_card_of_nodup hnd, hfs]

/-! ## connected_components and is_cyclic_undirected (algo.rs) -/

/-- connected_components: union the endpoint indices of every edge, then
count the distinct labels (sort, dedup, len). -/
def connected_components (g : SGraph) : Nat :=
  (dedupC (insSortBy nble
    ((unionPairs (UnionFind.new g.node_bound) g.edges).into_labeling))).length

/-- The edge scan of is_cyclic_undirected: short-circuit with true as soon
as a union reports the endpoints already in one class. -/
def icuGo (uf : UnionFind) : List (Nat × Nat) → Bool
  | [] => false
  | e :: rest =>
    let r := uf.union e.1 e.2
    if r.1 then icuGo r.2 rest else true

/-- is_cyclic_undirected: union each edge in order; report a cycle at the
first edge whose endpoints were already in the same class. -/
def is_cyclic_undirected (g : SGraph) : Bool :=
  icuGo (UnionFind.new g.node_bound) g.edges

lemma connected_components_eq_card (g : SGraph) :
    connected_components g =
      ((unionPairs (UnionFind.new g.node_bound) g.edges).into_labeling).toFinset.card := by
  unfold connected_components
  rw [dedupC_card _ (insSortBy_sorted_nat _)]
  rw [List.toFinset_eq_of_perm _ _ (insSortBy_perm nble _)]

lemma labels_eq_map_find (uf : UnionFind) (n : Nat) (hlen : uf.labels.length = n) :
    uf.labels = (List.range n).map uf.find := by
  refine List.ext_getElem (by simp [hlen]) ?_
  intro i h1 h2
  simp only [List.getElem_map, List.getElem_range]
  exact (UnionFind.find_eq_getElem h1).symm

lemma labels_toFinset_eq_image (uf : UnionFind) (n : Nat)
    (hlen : uf.labels.length = n) :
    uf.labels.toFinset = (Finset.range n).image uf.find := by
  rw [labels_eq_map_find uf n hlen]
  ext x
  simp

lemma icuGo_iff (es : List (Nat × Nat)) :
    ∀ uf : UnionFind, (icuGo uf es = true ↔
      ∃ (pre : List (Nat × Nat)) (e : Nat × Nat) (post : List (Nat × Nat)),
        es = pre ++ e :: post ∧
        (unionPairs uf pre).find e.1 = (unionPairs uf pre).find e.2) := by
  induction es with
  | nil =>
    intro uf
    simp only [icuGo]
    constructor
    · intro h
      cases h
    · rintro ⟨pre, e, post, heq, _⟩
      exact absurd heq.symm (List.append_ne_nil_of_right_ne_nil _ (List.cons_ne_nil _ _))
  | cons e rest ih =>
    intro uf
    rw [icuGo]
    by_cases hf : (uf.union e.1 e.2).1 = true
    · rw [if_pos hf, ih]
      have hne : ¬ uf.find e.1 = uf.find e.2 :=
        (UnionFind.union_fst_iff uf e.1 e.2).mp hf
      constructor
      · rintro ⟨pre, e2, post, heq, hfind⟩
        refine ⟨e :: pre, e2, post, by rw [heq]; rfl, ?_⟩
        rw [show unionPairs uf (e :: pre) = unionPairs (uf.union e.1 e.2).2 pre
          from rfl]
        exact hfind
      · rintro ⟨pre, e2, post, heq, hfind⟩
        cases pre with
        | nil =>
          rw [List.nil_append] at heq
          injection heq with h1 h2
          subst h1
          exact absurd hfind hne
        | cons p pre2 =>
          rw [List.cons_append] at heq
          injection heq with h1 h2
          subst h1
          exact ⟨pre2, e2, post, h2, hfind⟩
    · rw [if_neg hf]
      simp only [true_iff]
      have heqf : uf.find e.1 = uf.find e.2 := by
        by_contra hc
        exact hf ((UnionFind.union_fst_iff uf e.1 e.2).mpr hc)
      exact ⟨[], e, rest, rfl, heqf⟩

/-! ### Executable undirected reachability and component counting -/

/-- Neighbors of x ignoring direction. -/
def uNbrs (g : SGraph) (x : Nat) : List Nat :=
  g.neighbors_directed x .Outgoing ++ g.neighbors_directed x .Incoming

lemma mem_uNbrs_iff (g : SGraph) (x y : Nat) : y ∈ uNbrs g x ↔ uadj g x y := by
  rw [uNbrs, List.mem_append,
    show g.neighbors_directed x .Outgoing = g.neighbors x from rfl,
    mem_neighbors_iff, mem_neighbors_incoming_iff]
  exact Iff.rfl

/-- One expansion step of undirected reachability. -/
def ustep (g : SGraph) (s : Finset Nat) : Finset Nat :=
  s ∪ s.biUnion (fun x => (uNbrs g x).toFinset)

/-- The set of nodes connected to `a` ignoring direction, computed by
expanding n times (enough to saturate). -/
def reachSet (g : SGraph) (a : Nat) : Finset Nat := (ustep g)^[g.n] {a}

lemma ustep_subset (g : SGraph) (s : Finset Nat) : s ⊆ ustep g s :=
  Finset.subset_union_left

lemma ustep_range (g : SGraph) (hwf : g.WF) (s : Finset Nat)
    (hs : s ⊆ Finset.range g.n) : ustep g s ⊆ Finset.range g.n := by
  intro y hy
  rcases Finset.mem_union.mp hy with hy | hy
  · exact hs hy
  · obtain ⟨x, _, hyx⟩ := Finset.mem_biUnion.mp hy
    rw [List.mem_toFinset, mem_uNbrs_iff] at hyx
    refine Finset.mem_range.mpr ?_
    rcases hyx with h | h
    · exact (hwf _ h).2
    · exact (hwf _ h).1

lemma iter_ustep_subset_succ (g : SGraph) (s : Finset Nat) (k : Nat) :
    (ustep g)^[k] s ⊆ (ustep g)^[k + 1] s := by
  rw [Function.iterate_succ_apply']
  exact ustep_subset g _

lemma iter_ustep_subset_of_le (g : SGraph) (s : Finset Nat) {k m : Nat}
    (h : k ≤ m) : (ustep g)^[k] s ⊆ (ustep g)^[m] s := by
  induction m with
  | zero =>
    have : k = 0 := Nat.le_zero.mp h
    rw [this]
  | succ m ih =>
    rcases Nat.lt_or_ge k (m + 1) with h2 | h2
    · exact Finset.Subset.trans (ih (Nat.lt_succ_iff.mp h2))
        (iter_ustep_subset_succ g s m)
    · have : k = m + 1 := Nat.le_antisymm h h2
      rw [this]

lemma iter_ustep_range (g : SGraph) (hwf : g.WF) {a : Nat} (ha : a < g.n) :
    ∀ k, (ustep g)^[k] {a} ⊆ Finset.range g.n := by
  intro k
  induction k with
  | zero =>
    intro y hy
    rw [Function.iterate_zero_apply] at hy
    rw [Finset.mem_singleton.mp hy]
    exact Finset.mem_range.mpr ha
  | succ k ih =>
    rw [Function.iterate_succ_apply']
    exact ustep_range g hwf _ ih

lemma iter_ustep_stable (g : SGraph) (s : Finset Nat)
    (hfix : ustep g s = s) : ∀ m, (ustep g)^[m] s = s := by
  intro m
  induction m with
  | zero => rfl
  | succ m ih => rw [Function.iterate_succ_apply', ih, hfix]

lemma reachSet_fixed (g : SGraph) (hwf : g.WF) {a : Nat} (ha : a < g.n) :
    ustep g (reachSet g a) = reachSet g a := by
  by_cases hex : ∃ j, j < g.n ∧ ustep g ((ustep g)^[j] {a}) = (ustep g)^[j] {a}
  · obtain ⟨j, hj, hfix⟩ := hex
    have hgefix : ∀ m, (ustep g)^[j + m] {a} = (ustep g)^[j] {a} := by
      intro m
      rw [Nat.add_comm j m, Function.iterate_add_apply]
      exact iter_ustep_stable g _ hfix m
    have hn : reachSet g a = (ustep g)^[j] {a} := by
      have h2 := hgefix (g.n - j)
      rw [show j + (g.n - j) = g.n from by omega] at h2
      rw [reachSet]
      exact h2
    rw [hn, hfix]
  · push_neg at hex
    exfalso
    have hgrow : ∀ k, k ≤ g.n → k + 1 ≤ ((ustep g)^[k] {a}).card := by
      intro k
      induction k with
      | zero =>
        intro _
        rw [Function.iterate_zero_apply, Finset.card_singleton]
      | succ k ih =>
        intro hk
        have h1 := ih (by omega)
        have hss : (ustep g)^[k] {a} ⊂ (ustep g)^[k + 1] {a} := by
          refine Finset.ssubset_iff_subset_ne.mpr
            ⟨iter_ustep_subset_succ g _ k, ?_⟩
          intro heq
          refine hex k (by omega) ?_
          rw [← Function.iterate_succ_apply' (ustep g) k {a}]
          exact heq.symm
        have := Finset.card_lt_card hss
        omega
    have h1 := hgrow g.n (Nat.le_refl _)
    have h2 := Finset.card_le_card (iter_ustep_range g hwf ha g.n)
    rw [Finset.card_range] at h2
    omega

lemma mem_reachSet_iff (g : SGraph) (hwf : g.WF) {a : Nat} (ha : a < g.n)
    (b : Nat) : b ∈ reachSet g a ↔ ReachU g a b := by
  constructor
  · have haux : ∀ k b, b ∈ (ustep g)^[k] {a} → ReachU g a b := by
      intro k
      induction k with
      | zero =>
        intro b hb
        rw [Function.iterate_zero_apply] at hb
        rw [Finset.mem_singleton.mp hb]
        exact Relation.ReflTransGen.refl
      | succ k ih =>
        intro b hb
        rw [Function.iterate_succ_apply'] at hb
        rcases Finset.mem_union.mp hb with hb | hb
        · exact ih b hb
        · obtain ⟨x, hx, hbx⟩ := Finset.mem_biUnion.mp hb
          rw [List.mem_toFinset, mem_uNbrs_iff] at hbx
          exact Relation.ReflTransGen.tail (ih x hx) hbx
    exact haux g.n b
  · intro h
    induction h with
    | refl =>
      refine iter_ustep_subset_of_le g _ (Nat.zero_le g.n) ?_
      rw [Function.iterate_zero_apply]
      exact Finset.mem_singleton_self a
    | tail hab hbc ih =>
      rw [← reachSet_fixed g hwf ha]
      refine Finset.mem_union_right _ (Finset.mem_biUnion.mpr ⟨_, ih, ?_⟩)
      rw [List.mem_toFinset, mem_uNbrs_iff]
      exact hbc

/-- The number of connected components of a graph viewed as undirected:
count the nodes that are the least node of their component. -/
def componentCount (g : SGraph) : Nat :=
  ((Finset.range g.n).filter (fun i => ∀ j ∈ Finset.range i, i ∉ reachSet g j)).card

/-- Counting least representatives of the classes of `f` on 0..n equals the
number of distinct values of `f` on 0..n. -/
lemma card_filter_least_eq_card_image (n : Nat) (f : Nat → Nat) :
    ((Finset.range n).filter (fun i => ∀ j ∈ Finset.range i, f j ≠ f i)).card
      = ((Finset.range n).image f).card := by
  have hinj : Set.InjOn f
      ((Finset.range n).filter (fun i => ∀ j ∈ Finset.range i, f j ≠ f i)) := by
    intro i hi j hj hij
    simp only [Finset.coe_filter, Set.mem_setOf_eq] at hi hj
    by_contra hne
    rcases Nat.lt_or_ge i j with h | h
    · exact hj.2 i (Finset.mem_range.mpr h) hij
    · exact hi.2 j (Finset.mem_range.mpr (by omega)) hij.symm
  have himg : ((Finset.range n).filter
      (fun i => ∀ j ∈ Finset.range i, f j ≠ f i)).image f
      = (Finset.range n).image f := by
    apply Finset.Subset.antisymm
    · exact Finset.image_subset_image (Finset.filter_subset _ _)
    · intro b hb
      obtain ⟨i, hi, rfl⟩ := Finset.mem_image.mp hb
      have hMne : ((Finset.range n).filter (fun j => f j = f i)).Nonempty :=
        ⟨i, Finset.mem_filter.mpr ⟨hi, rfl⟩⟩
      obtain ⟨hmn, hmf⟩ := Finset.mem_filter.mp
        (Finset.min'_mem _ hMne)
      refine Finset.mem_image.mpr ⟨_, Finset.mem_filter.mpr ⟨hmn, ?_⟩, hmf⟩
      intro j hj hfj
      have hjM : j ∈ (Finset.range n).filter (fun j => f j = f i) :=
        Finset.mem_filter.mpr ⟨Finset.mem_range.mpr
          (Nat.lt_trans (Finset.mem_range.mp hj) (Finset.mem_range.mp hmn)),
          hfj.trans hmf⟩
      have := Finset.min'_le _ j hjM
      have := Finset.mem_range.mp hj
      omega
  rw [← himg, Finset.card_image_of_injOn hinj]

lemma componentCount_eq_card_image (g : SGraph) (hwf : g.WF) :
    componentCount g =
      ((Finset.range g.n).image (unionPairs (UnionFind.new g.n) g.edges).find).card := by
  rw [componentCount, ← card_filter_least_eq_card_image g.n
    (unionPairs (UnionFind.new g.n) g.edges).find]
  congr 1
  refine Finset.filter_congr ?_
  intro i hi
  rw [Finset.mem_range] at hi
  constructor
  · intro h j hj
    have hj2 := Finset.mem_range.mp hj
    intro hfj
    have hreach : RL g.edges j i :=
      (unionPairs_find_iff g.n g.edges (fun e he => hwf e he) j i
        (by omega) hi).mp hfj
    exact h j hj ((mem_reachSet_iff g hwf (by omega) i).mpr hreach)
  · intro h j hj hmem
    have hj2 := Finset.mem_range.mp hj
    have hreach : RL g.edges j i :=
      (mem_reachSet_iff g hwf (by omega) i).mp hmem
    exact h j hj ((unionPairs_find_iff g.n g.edges (fun e he => hwf e he) j i
      (by omega) hi).mpr hreach)

/-! ## min_spanning_tree (algo.rs, Kruskal) -/

/-- The concrete weighted Graph used by min_spanning_tree: node weights in
index order and edges (source, target, weight).  The Graph storage type is
outside src/; per the spec, raw_nodes / raw_edges iterate these lists in
order and add_node / add_edge append. -/
structure WGraph where
  nodes : List Nat
  edges : List (Nat × Nat × Nat)
deriving DecidableEq

/-- Every edge endpoint is a real node index. -/
def WGraph.WF (w : WGraph) : Prop :=
  ∀ e ∈ w.edges, e.1 < w.nodes.length ∧ e.2.1 < w.nodes.length

instance (w : WGraph) : Decidable w.WF := by
  unfold WGraph.WF; infer_instance

/-- The unweighted directed view of a weighted graph. -/
def WGraph.toS (w : WGraph) : SGraph :=
  ⟨w.nodes.length, w.edges.map (fun e => (e.1, e.2.1))⟩

/-- Modelled from the spec: the BinaryHeap of MinScored values (scored.rs
and the heap are outside src/) always extracts a least-weight edge first,
and MinScored compares weights only, so the tie order among equal weights is
a deterministic function of insertion positions and weights alone.  The
model keys each inserted edge by (weight, insertion index). -/
def wle (x y : Nat × Nat × Nat × Nat) : Bool :=
  decide (x.2.2.2 < y.2.2.2 ∨ (x.2.2.2 = y.2.2.2 ∧ x.1 ≤ y.1))

/-- The edges of a weighted graph in heap extraction order, tagged with
their insertion index. -/
def msfSorted (w : WGraph) : List (Nat × Nat × Nat × Nat) :=
  insSortBy wle w.edges.enum

/-- Kruskal's scan: union each edge's endpoint indices in extraction order;
append to the output exactly the edges whose union succeeded. -/
def kruskalFold (uf : UnionFind) (mst : List (Nat × Nat × Nat)) :
    List (Nat × Nat × Nat × Nat) → UnionFind × List (Nat × Nat × Nat)
  | [] => (uf, mst)
  | x :: rest =>
    let r := uf.union x.2.1 x.2.2.1
    if r.1 then kruskalFold r.2 (mst ++ [x.2]) rest
    else kruskalFold r.2 mst rest

/-- min_spanning_tree: copy all node weights in order, then run Kruskal's
scan over the edges in ascending weight order. -/
def min_spanning_tree (w : WGraph) : WGraph :=
  if w.nodes.length = 0 then ⟨[], []⟩
  else ⟨w.nodes, (kruskalFold (UnionFind.new w.nodes.length) [] (msfSorted w)).2⟩

lemma min_spanning_tree_nodes (w : WGraph) :
    (min_spanning_tree w).nodes = w.nodes := by
  unfold min_spanning_tree
  by_cases h : w.nodes.length = 0
  · rw [if_pos h, List.length_eq_zero.mp h]
  · rw [if_neg h]

lemma kruskalFold_uf (l : List (Nat × Nat × Nat × Nat)) :
    ∀ (uf : UnionFind) (mst : List (Nat × Nat × Nat)),
      (kruskalFold uf mst l).1 =
        unionPairs uf (l.map (fun x => (x.2.1, x.2.2.1))) := by
  induction l with
  | nil => intro uf mst; rfl
  | cons x rest ih =>
    intro uf mst
    rw [kruskalFold, List.map_cons, unionPairs]
    by_cases h : (uf.union x.2.1 x.2.2.1).1
    · rw [if_pos h, ih]
    · rw [if_neg h, ih]

lemma mem_msfSorted (w : WGraph) {x : Nat × Nat × Nat × Nat}
    (hx : x ∈ msfSorted w) : x.2 ∈ w.edges := by
  have h1 : x ∈ w.edges.enum := (insSortBy_perm wle _).mem_iff.mp hx
  have h2 : x.2 ∈ (List.enum w.edges).map Prod.snd :=
    List.mem_map_of_mem Prod.snd h1
  rwa [List.enum_map_snd] at h2

/-- One merging union removes exactly one label class. -/
lemma union_card_decrement (uf : UnionFind) (a b : Nat)
    (ha : a < uf.labels.length) (hb : b < uf.labels.length)
    (hne : ¬ uf.find a = uf.find b) :
    (uf.union a b).2.labels.toFinset.card + 1 = uf.labels.toFinset.card := by
  have hra : uf.find a ∈ uf.labels := by
    rw [UnionFind.find_eq_getElem ha]
    exact List.getElem_mem _
  have hrb : uf.find b ∈ uf.labels.toFinset := by
    rw [List.mem_toFinset, UnionFind.find_eq_getElem hb]
    exact List.getElem_mem _
  rw [UnionFind.union_snd_labels_of_ne hne]
  have himg : (uf.labels.map
      (fun l => if l = uf.find b then uf.find a else l)).toFinset
      = uf.labels.toFinset.erase (uf.find b) := by
    ext y
    simp only [List.mem_toFinset, List.mem_map, Finset.mem_erase]
    constructor
    · rintro ⟨l, hl, rfl⟩
      by_cases hlb : l = uf.find b
      · rw [if_pos hlb]
        exact ⟨hne, hra⟩
      · rw [if_neg hlb]
        exact ⟨hlb, hl⟩
    · rintro ⟨hyne, hyl⟩
      exact ⟨y, hyl, by rw [if_neg hyne]⟩
  rw [himg, Finset.card_erase_of_mem hrb]
  have hpos := Finset.card_pos.mpr ⟨_, hrb⟩
  omega

lemma kruskalFold_count (n : Nat) :
    ∀ (l : List (Nat × Nat × Nat × Nat)) (uf : UnionFind)
      (mst : List (Nat × Nat × Nat)),
      uf.labels.length = n →
      (∀ x ∈ l, x.2.1 < n ∧ x.2.2.1 < n) →
      (kruskalFold uf mst l).2.length + (kruskalFold uf mst l).1.labels.toFinset.card
        = mst.length + uf.labels.toFinset.card := by
  intro l
  induction l with
  | nil => intro uf mst _ _; rfl
  | cons x rest ih =>
    intro uf mst hlen hbnd
    have hx := hbnd x (List.mem_cons_self _ _)
    rw [kruskalFold]
    by_cases h : (uf.union x.2.1 x.2.2.1).1
    · rw [if_pos h]
      have hne : ¬ uf.find x.2.1 = uf.find x.2.2.1 :=
        (UnionFind.union_fst_iff uf _ _).mp h
      have hdec := union_card_decrement uf x.2.1 x.2.2.1
        (by rw [hlen]; exact hx.1) (by rw [hlen]; exact hx.2) hne
      have hrec := ih (uf.union x.2.1 x.2.2.1).2 (mst ++ [x.2])
        (by rw [UnionFind.union_length, hlen])
        (fun y hy => hbnd y (List.mem_cons_of_mem _ hy))
      rw [hrec, List.length_append]
      simp only [List.length_cons, List.length_nil]
      omega
    · rw [if_neg h]
      have heq : uf.find x.2.1 = uf.find x.2.2.1 := by
        by_contra hc
        exact h ((UnionFind.union_fst_iff uf _ _).mpr hc)
      have hrec := ih (uf.union x.2.1 x.2.2.1).2 mst
        (by rw [UnionFind.union_length, hlen])
        (fun y hy => hbnd y (List.mem_cons_of_mem _ hy))
      rw [hrec, UnionFind.union_snd_of_eq heq]

lemma card_image_eq_of_same_classes (n : Nat) (f f2 : Nat → Nat)
    (h : ∀ i j, i < n → j < n → (f i = f j ↔ f2 i = f2 j)) :
    ((Finset.range n).image f).card = ((Finset.range n).image f2).card := by
  rw [← card_filter_least_eq_card_image n f, ← card_filter_least_eq_card_image n f2]
  congr 1
  refine Finset.filter_congr ?_
  intro i hi
  rw [Finset.mem_range] at hi
  constructor
  · intro hh j hj heq
    exact hh j hj ((h j i (Nat.lt_trans (Finset.mem_range.mp hj) hi) hi).mpr heq)
  · intro hh j hj heq
    exact hh j hj ((h j i (Nat.lt_trans (Finset.mem_range.mp hj) hi) hi).mp heq)

lemma msfSorted_pairs_perm (w : WGraph) :
    ((msfSorted w).map (fun x => (x.2.1, x.2.2.1))).Perm w.toS.edges := by
  have h1 : (msfSorted w).Perm w.edges.enum := insSortBy_perm wle _
  have h2 := h1.map (fun x : Nat × Nat × Nat × Nat => (x.2.1, x.2.2.1))
  have h3 : (w.edges.enum).map (fun x : Nat × Nat × Nat × Nat => (x.2.1, x.2.2.1))
      = w.edges.map (fun e => (e.1, e.2.1)) := by
    rw [show (fun x : Nat × Nat × Nat × Nat => (x.2.1, x.2.2.1))
        = (fun e : Nat × Nat × Nat => (e.1, e.2.1)) ∘ Prod.snd from rfl,
      ← List.map_map, List.enum_map_snd]
  rw [h3] at h2
  exact h2

/-- The edge count of the spanning forest: V minus the number of undirected
connected components. -/
theorem msf_edge_count (w : WGraph) (hwf : w.WF) :
    (min_spanning_tree w).edges.length + componentCount w.toS = w.nodes.length := by
  by_cases h0 : w.nodes.length = 0
  · rw [min_spanning_tree, if_pos h0]
    have hzero : componentCount w.toS = 0 := by
      unfold componentCount
      have hz : w.toS.n = 0 := h0
      rw [hz]
      simp
    rw [hzero, h0]
    simp
  · rw [min_spanning_tree, if_neg h0]
    set n := w.nodes.length with hn
    have hbnd : ∀ x ∈ msfSorted w, x.2.1 < n ∧ x.2.2.1 < n := by
      intro x hx
      exact hwf x.2 (mem_msfSorted w hx)
    have hwfS : w.toS.WF := by
      intro e he
      obtain ⟨e0, he0, rfl⟩ := List.mem_map.mp he
      exact hwf e0 he0
    have hcount := kruskalFold_count n (msfSorted w) (UnionFind.new n) []
      (UnionFind.new_length n) hbnd
    have hinit : (UnionFind.new n).labels.toFinset.card = n := by
      show (List.range n).toFinset.card = n
      rw [show (List.range n).toFinset = Finset.range n from by ext x; simp,
        Finset.card_range]
    have hlenF : (kruskalFold (UnionFind.new n) [] (msfSorted w)).1.labels.length = n := by
      rw [kruskalFold_uf, unionPairs_length, UnionFind.new_length]
    have hcardF : (kruskalFold (UnionFind.new n) [] (msfSorted w)).1.labels.toFinset.card
        = componentCount w.toS := by
      rw [labels_toFinset_eq_image _ n hlenF,
        componentCount_eq_card_image w.toS hwfS]
      refine card_image_eq_of_same_classes n _ _ ?_
      intro i j hi hj
      rw [kruskalFold_uf]
      have hA := unionPairs_find_iff n
        ((msfSorted w).map (fun x => (x.2.1, x.2.2.1)))
        (by
          intro e he
          obtain ⟨x, hx, rfl⟩ := List.mem_map.mp he
          exact hbnd x hx)
        i j hi hj
      have hB := unionPairs_find_iff w.toS.n w.toS.edges
        (fun e he => hwfS e he) i j hi hj
      rw [hA, hB]
      have hperm := msfSorted_pairs_perm w
      constructor
      · exact fun h => RL_mono (fun e he => hperm.mem_iff.mp he) h
      · exact fun h => RL_mono (fun e he => hperm.mem_iff.mpr he) h
    show (kruskalFold (UnionFind.new n) [] (msfSorted w)).2.length
      + componentCount w.toS = n
    rw [← hcardF, hcount, hinit, List.length_nil, Nat.zero_add]

/-! ### Direction of the input edges does not affect Kruskal's selection -/

/-- Two weighted edges equal up to direction. -/
def flipE (e1 e2 : Nat × Nat × Nat) : Prop :=
  e2 = e1 ∨ e2 = (e1.2.1, e1.1, e1.2.2)

lemma flipE_weight {e1 e2 : Nat × Nat × Nat} (h : flipE e1 e2) :
    e2.2.2 = e1.2.2 := by
  rcases h with rfl | rfl
  · rfl
  · rfl

/-- Indexed edges equal up to direction of the payload. -/
def flipEI (x y : Nat × Nat × Nat × Nat) : Prop := y.1 = x.1 ∧ flipE x.2 y.2

lemma wle_congr {a b a2 b2 : Nat × Nat × Nat × Nat}
    (ha : flipEI a a2) (hb : flipEI b b2) : wle a b = wle a2 b2 := by
  unfold wle
  rw [show a2.2.2.2 = a.2.2.2 from flipE_weight ha.2,
    show b2.2.2.2 = b.2.2.2 from flipE_weight hb.2, ha.1, hb.1]

lemma insertLe_congr {α : Type} (le : α → α → Bool) (R : α → α → Prop)
    (hcomp : ∀ a b a2 b2, R a a2 → R b b2 → le a b = le a2 b2)
    {x x2 : α} (hx : R x x2) :
    ∀ {l l2 : List α}, List.Forall₂ R l l2 →
      List.Forall₂ R (insertLe le x l) (insertLe le x2 l2) := by
  intro l l2 h
  induction h with
  | nil => exact List.Forall₂.cons hx List.Forall₂.nil
  | @cons a b l1 l2 h1 h2 ih =>
    rw [insertLe, insertLe]
    have hle : le x a = le x2 b := hcomp x a x2 b hx h1
    by_cases hc : le x a
    · rw [if_pos hc, if_pos (by rw [← hle]; exact hc)]
      exact List.Forall₂.cons hx (List.Forall₂.cons h1 h2)
    · rw [if_neg hc, if_neg (by rw [← hle]; exact hc)]
      exact List.Forall₂.cons h1 ih

lemma insSortBy_congr {α : Type} (le : α → α → Bool) (R : α → α → Prop)
    (hcomp : ∀ a b a2 b2, R a a2 → R b b2 → le a b = le a2 b2)
    {l l2 : List α} (h : List.Forall₂ R l l2) :
    List.Forall₂ R (insSortBy le l) (insSortBy le l2) := by
  induction h with
  | nil => exact List.Forall₂.nil
  | cons h1 h2 ih => exact insertLe_congr le R hcomp h1 ih

lemma enumFrom_flip {R : (Nat × Nat × Nat) → (Nat × Nat × Nat) → Prop} :
    ∀ (k : Nat) {l l2 : List (Nat × Nat × Nat)}, List.Forall₂ R l l2 →
      List.Forall₂ (fun x y => y.1 = x.1 ∧ R x.2 y.2)
        (l.enumFrom k) (l2.enumFrom k) := by
  intro k l l2 h
  induction h generalizing k with
  | nil => exact List.Forall₂.nil
  | cons h1 h2 ih => exact List.Forall₂.cons ⟨rfl, h1⟩ (ih (k + 1))

/-- Two union-find states representing the same partition of 0..n. -/
def PartEq (n : Nat) (uf uf2 : UnionFind) : Prop :=
  uf.labels.length = n ∧ uf2.labels.length = n ∧
    ∀ x y, x < n → y < n → (uf.find x = uf.find y ↔ uf2.find x = uf2.find y)

lemma UnionFind.union_fst_eq (uf : UnionFind) (a b : Nat) :
    (uf.union a b).1 = decide (¬ uf.find a = uf.find b) := by
  unfold UnionFind.union
  by_cases h : uf.find a = uf.find b <;> simp [h]

lemma union_congr (n : Nat) {uf uf2 : UnionFind} (hpe : PartEq n uf uf2)
    {a b a2 b2 : Nat} (ha : a < n) (hb : b < n)
    (hpair : (a2 = a ∧ b2 = b) ∨ (a2 = b ∧ b2 = a)) :
    (uf.union a b).1 = (uf2.union a2 b2).1 ∧
      PartEq n (uf.union a b).2 (uf2.union a2 b2).2 := by
  obtain ⟨hl1, hl2, hiff⟩ := hpe
  have hkey : (uf.find a = uf.find b) ↔ (uf2.find a2 = uf2.find b2) := by
    rcases hpair with ⟨he1, he2⟩ | ⟨he1, he2⟩
    · rw [he1, he2]
      exact hiff a b ha hb
    · rw [he1, he2, hiff a b ha hb]
      exact eq_comm
  constructor
  · rw [UnionFind.union_fst_eq, UnionFind.union_fst_eq]
    exact decide_eq_decide.mpr (not_congr hkey)
  · by_cases h : uf.find a = uf.find b
    · rw [UnionFind.union_snd_of_eq h, UnionFind.union_snd_of_eq (hkey.mp h)]
      exact ⟨hl1, hl2, hiff⟩
    · have h2 : ¬ uf2.find a2 = uf2.find b2 := fun hc => h (hkey.mpr hc)
      refine ⟨by rw [UnionFind.union_length]; exact hl1,
        by rw [UnionFind.union_length]; exact hl2, ?_⟩
      intro x y hx hy
      rw [UnionFind.union_find_eq_iff h (by rw [hl1]; exact hx)
        (by rw [hl1]; exact hy),
        UnionFind.union_find_eq_iff h2 (by rw [hl2]; exact hx)
        (by rw [hl2]; exact hy)]
      rcases hpair with ⟨he1, he2⟩ | ⟨he1, he2⟩
      · rw [he1, he2]
        exact or_congr (hiff x y hx hy)
          (and_congr (or_congr (hiff x a hx ha) (hiff x b hx hb))
            (or_congr (hiff y a hy ha) (hiff y b hy hb)))
      · rw [he1, he2]
        refine or_congr (hiff x y hx hy) (and_congr ?_ ?_)
        · rw [or_comm]
          exact or_congr (hiff x b hx hb) (hiff x a hx ha)
        · rw [or_comm]
          exact or_congr (hiff y b hy hb) (hiff y a hy ha)

lemma kruskalFold_congr (n : Nat) :
    ∀ {l l2 : List (Nat × Nat × Nat × Nat)}, List.Forall₂ flipEI l l2 →
      ∀ (uf uf2 : UnionFind) (mst mst2 : List (Nat × Nat × Nat)),
      (∀ x ∈ l, x.2.1 < n ∧ x.2.2.1 < n) →
      PartEq n uf uf2 → List.Forall₂ flipE mst mst2 →
      List.Forall₂ flipE (kruskalFold uf mst l).2 (kruskalFold uf2 mst2 l2).2 := by
  intro l l2 hF
  induction hF with
  | nil =>
    intro uf uf2 mst mst2 _ _ hm
    exact hm
  | @cons x x2 l l2 h1 h2 ih =>
    intro uf uf2 mst mst2 hbnd hpe hm
    rw [kruskalFold, kruskalFold]
    have hx := hbnd x (List.mem_cons_self _ _)
    have hpair : (x2.2.1 = x.2.1 ∧ x2.2.2.1 = x.2.2.1) ∨
        (x2.2.1 = x.2.2.1 ∧ x2.2.2.1 = x.2.1) := by
      rcases h1.2 with heq | heq
      · rw [heq]
        exact Or.inl ⟨rfl, rfl⟩
      · rw [heq]
        exact Or.inr ⟨rfl, rfl⟩
    have hcong := union_congr n hpe hx.1 hx.2 hpair
    by_cases hc : (uf.union x.2.1 x.2.2.1).1
    · rw [if_pos hc, if_pos (by rw [← hcong.1]; exact hc)]
      exact ih _ _ _ _ (fun y hy => hbnd y (List.mem_cons_of_mem _ hy)) hcong.2
        (List.rel_append hm (List.Forall₂.cons h1.2 List.Forall₂.nil))
    · rw [if_neg hc, if_neg (by rw [← hcong.1]; exact hc)]
      exact ih _ _ _ _ (fun y hy => hbnd y (List.mem_cons_of_mem _ hy)) hcong.2 hm

/-- Flipping the direction of any of the input edges does not change which
edges Kruskal selects (up to the same flips). -/
theorem msf_flip (w w2 : WGraph) (hwf : w.WF) (hnodes : w2.nodes = w.nodes)
    (hE : List.Forall₂ flipE w.edges w2.edges) :
    List.Forall₂ flipE (min_spanning_tree w).edges (min_spanning_tree w2).edges := by
  have hlen : w2.nodes.length = w.nodes.length := by rw [hnodes]
  by_cases h0 : w.nodes.length = 0
  · rw [min_spanning_tree, min_spanning_tree, if_pos h0,
      if_pos (by rw [hlen]; exact h0)]
    exact List.Forall₂.nil
  · rw [min_spanning_tree, min_spanning_tree, if_neg h0,
      if_neg (by rw [hlen]; exact h0)]
    have henum : List.Forall₂ flipEI w.edges.enum w2.edges.enum :=
      enumFrom_flip 0 hE
    have hsorted : List.Forall₂ flipEI (msfSorted w) (msfSorted w2) :=
      insSortBy_congr wle flipEI (fun a b a2 b2 hA hB => wle_congr hA hB) henum
    have hbnd : ∀ x ∈ msfSorted w, x.2.1 < w.nodes.length ∧
        x.2.2.1 < w.nodes.length := by
      intro x hx
      exact hwf x.2 (mem_msfSorted w hx)
    show List.Forall₂ flipE (kruskalFold (UnionFind.new w.nodes.length) []
        (msfSorted w)).2
      (kruskalFold (UnionFind.new w2.nodes.length) [] (msfSorted w2)).2
    rw [hlen]
    exact kruskalFold_congr w.nodes.length hsorted _ _ _ _ hbnd
      ⟨UnionFind.new_length _, UnionFind.new_length _,
        fun x y _ _ => Iff.rfl⟩ List.Forall₂.nil

/-! ## scc (algo.rs, Kosaraju's two-pass algorithm) -/

/-- The IntoNeighbors capability of Reversed(g), as passed to
dfs.next(Reversed(g)) in phase 1. -/
def revNbrs (g : SGraph) (x : Nat) : List Nat :=
  (Reversed.mk g).neighbors x

lemma revNbrs_eq (g : SGraph) (x : Nat) :
    revNbrs g x = g.neighbors_directed x .Incoming := rfl

/-- Termination measure for one phase-1 walk. -/
def sccP1Measure (g : SGraph) (dfs : Dfs) (fin : Finset Nat) : Nat :=
  ((gUniv g ∪ dfs.stack.toFinset) \ fin).card
    + ((gUniv g ∪ dfs.stack.toFinset) \ dfs.discovered).card + dfs.stack.length

/-- One phase-1 walk of scc: look at the stack top; a freshly finished node
is pushed again and expanded through Dfs::next on the reversed graph
(the extra copy is immediately popped by next); an already finished top is
popped into the finish order. -/
def sccP1go (g : SGraph) : Nat → Dfs → Finset Nat → List Nat →
    Dfs × Finset Nat × List Nat
  | 0, dfs, fin, forder => (dfs, fin, forder)
  | fuel + 1, dfs, fin, forder =>
    match dfs.stack with
    | [] => (dfs, fin, forder)
    | nx :: rest =>
      if nx ∈ fin then sccP1go g fuel ⟨rest, dfs.discovered⟩ fin (forder ++ [nx])
      else
        match Dfs.next (revNbrs g) ⟨nx :: dfs.stack, dfs.discovered⟩ with
        | none => (dfs, fin, forder)
        | some p => sccP1go g fuel p.2 (insert nx fin) forder

/-- Phase 1 of scc: for every undiscovered node, move the shared Dfs to it
and run the walk, accumulating the finish order. -/
def sccP1Outer (g : SGraph) :
    List Nat → Dfs × Finset Nat × List Nat → Dfs × Finset Nat × List Nat
  | [], st => st
  | i :: rest, st =>
    if i ∈ st.1.discovered then sccP1Outer g rest st
    else
      sccP1Outer g rest
        (sccP1go g (sccP1Measure g (st.1.move_to i) st.2.1 + 1)
          (st.1.move_to i) st.2.1 st.2.2)

/-- Phase 1: reverse-graph pseudo-postorder over all nodes. -/
def sccP1 (g : SGraph) : Dfs × Finset Nat × List Nat :=
  sccP1Outer g (List.range g.n) (Dfs.empty g, g.visit_map, [])

/-- Phase 2 of scc: walk the finish order in reverse; every still
undiscovered entry seeds a forward DFS whose emissions form one group. -/
def sccP2 (g : SGraph) : List Nat → Finset Nat → List (List Nat) × Finset Nat
  | [], disc => ([], disc)
  | i :: rest, disc =>
    if i ∈ disc then sccP2 g rest disc
    else
      let st := Dfs.move_to ⟨[], disc⟩ i
      let r := dfsRun g.neighbors (dfsMeasure (gUniv g) st + 1) st
      let r2 := sccP2 g rest r.2.discovered
      (r.1 :: r2.1, r2.2)

/-- scc: Kosaraju's two passes. -/
def scc (g : SGraph) : List (List Nat) :=
  (sccP2 g (sccP1 g).2.2.reverse (g.reset_map (sccP1 g).1.discovered)).1

lemma revNbrs_subset_gUniv (g : SGraph) (x : Nat) :
    ∀ y ∈ revNbrs g x, y ∈ gUniv g := by
  intro y hy
  rw [revNbrs_eq] at hy
  exact neighbors_incoming_subset_gUniv g x y hy

lemma sccP1go_mono (g : SGraph) :
    ∀ (fuel : Nat) (dfs : Dfs) (fin : Finset Nat) (forder : List Nat),
      dfs.discovered ⊆ (sccP1go g fuel dfs fin forder).1.discovered ∧
      ∀ x ∈ forder, x ∈ (sccP1go g fuel dfs fin forder).2.2 := by
  intro fuel
  induction fuel with
  | zero => intro dfs fin forder; exact ⟨Finset.Subset.refl _, fun x hx => hx⟩
  | succ n ih =>
    intro dfs fin forder
    cases hst : dfs.stack with
    | nil =>
      simp only [sccP1go, hst]
      exact ⟨Finset.Subset.refl _, fun x hx => hx⟩
    | cons nx rest =>
      simp only [sccP1go, hst]
      by_cases hmem : nx ∈ fin
      · rw [if_pos hmem]
        obtain ⟨ih1, ih2⟩ := ih ⟨rest, dfs.discovered⟩ fin (forder ++ [nx])
        exact ⟨ih1, fun x hx => ih2 x (List.mem_append.mpr (Or.inl hx))⟩
      · rw [if_neg hmem]
        rw [Dfs.next_cons rfl]
        obtain ⟨fl, h1, h2, h3, h4⟩ :=
          foldl_visitPush_spec (revNbrs g nx) dfs.discovered (nx :: rest)
        obtain ⟨ih1, ih2⟩ := ih
          ⟨((revNbrs g nx).foldl visitPush (dfs.discovered, nx :: rest)).2,
           ((revNbrs g nx).foldl visitPush (dfs.discovered, nx :: rest)).1⟩
          (insert nx fin) forder
        refine ⟨Finset.Subset.trans ?_ ih1, ih2⟩
        show dfs.discovered ⊆
          ((revNbrs g nx).foldl visitPush (dfs.discovered, nx :: rest)).1
        rw [h1]
        exact Finset.subset_union_left

lemma sccP1go_cover (g : SGraph) :
    ∀ (fuel : Nat) (dfs : Dfs) (fin : Finset Nat) (forder : List Nat),
      (∀ x ∈ dfs.discovered, x ∈ forder ∨ x ∈ dfs.stack) →
      ∀ x ∈ (sccP1go g fuel dfs fin forder).1.discovered,
        x ∈ (sccP1go g fuel dfs fin forder).2.2 ∨
          x ∈ (sccP1go g fuel dfs fin forder).1.stack := by
  intro fuel
  induction fuel with
  | zero => intro dfs fin forder hinv; exact hinv
  | succ n ih =>
    intro dfs fin forder hinv
    cases hst : dfs.stack with
    | nil =>
      simp only [sccP1go, hst]
      intro x hx
      rcases hinv x hx with h | h
      · exact Or.inl h
      · rw [hst] at h
        cases h
    | cons nx rest =>
      simp only [sccP1go, hst]
      by_cases hmem : nx ∈ fin
      · rw [if_pos hmem]
        refine ih ⟨rest, dfs.discovered⟩ fin (forder ++ [nx]) ?_
        intro x hx
        rcases hinv x hx with h | h
        · exact Or.inl (List.mem_append.mpr (Or.inl h))
        · rw [hst] at h
          rcases List.mem_cons.mp h with rfl | h
          · exact Or.inl (List.mem_append.mpr (Or.inr (List.mem_singleton_self _)))
          · exact Or.inr h
      · rw [if_neg hmem]
        rw [Dfs.next_cons rfl]
        obtain ⟨fl, h1, h2, h3, h4⟩ :=
          foldl_visitPush_spec (revNbrs g nx) dfs.discovered (nx :: rest)
        refine ih _ (insert nx fin) forder ?_
        intro x hx
        show x ∈ forder ∨
          x ∈ ((revNbrs g nx).foldl visitPush (dfs.discovered, nx :: rest)).2
        rw [h2]
        rw [show ((revNbrs g nx).foldl visitPush (dfs.discovered, nx :: rest)).1
            = dfs.discovered ∪ (revNbrs g nx).toFinset from h1] at hx
        rcases Finset.mem_union.mp hx with hx | hx
        · rcases hinv x hx with h | h
          · exact Or.inl h
          · rw [hst] at h
            exact Or.inr (List.mem_append.mpr (Or.inr h))
        · by_cases hxd : x ∈ dfs.discovered
          · rcases hinv x hxd with h | h
            · exact Or.inl h
            · rw [hst] at h
              exact Or.inr (List.mem_append.mpr (Or.inr h))
          · refine Or.inr (List.mem_append.mpr (Or.inl ?_))
            exact (h4 x).mpr ⟨List.mem_toFinset.mp hx, hxd⟩

lemma sccP1go_range (g : SGraph) (hwf : g.WF) :
    ∀ (fuel : Nat) (dfs : Dfs) (fin : Finset Nat) (forder : List Nat),
      (∀ x ∈ dfs.stack, x < g.n) → (∀ x ∈ forder, x < g.n) →
      (∀ x ∈ (sccP1go g fuel dfs fin forder).2.2, x < g.n) ∧
      (∀ x ∈ (sccP1go g fuel dfs fin forder).1.stack, x < g.n) := by
  intro fuel
  induction fuel with
  | zero => intro dfs fin forder hstk hford; exact ⟨hford, hstk⟩
  | succ n ih =>
    intro dfs fin forder hstk hford
    cases hst : dfs.stack with
    | nil =>
      simp only [sccP1go, hst]
      refine ⟨hford, ?_⟩
      intro x hx
      cases hx
    | cons nx rest =>
      have hnx : nx < g.n := hstk nx (by rw [hst]; exact List.mem_cons_self _ _)
      simp only [sccP1go, hst]
      by_cases hmem : nx ∈ fin
      · rw [if_pos hmem]
        refine ih ⟨rest, dfs.discovered⟩ fin (forder ++ [nx]) ?_ ?_
        · intro x hx
          exact hstk x (by rw [hst]; exact List.mem_cons_of_mem _ hx)
        · intro x hx
          rcases List.mem_append.mp hx with hx | hx
          · exact hford x hx
          · rw [List.mem_singleton.mp hx]
            exact hnx
      · rw [if_neg hmem]
        rw [Dfs.next_cons rfl]
        obtain ⟨fl, h1, h2, h3, h4⟩ :=
          foldl_visitPush_spec (revNbrs g nx) dfs.discovered (nx :: rest)
        refine ih _ (insert nx fin) forder ?_ hford
        intro x hx
        show x < g.n
        rw [show ((revNbrs g nx).foldl visitPush (dfs.discovered, nx :: rest)).2
            = fl ++ (nx :: rest) from h2] at hx
        rcases List.mem_append.mp hx with hx | hx
        · have := ((h4 x).mp hx).1
          rw [revNbrs_eq] at this
          exact neighbors_incoming_lt_of_wf hwf nx x this
        · exact hstk x (by rw [hst]; exact hx)

lemma sccP1go_drain (g : SGraph) :
    ∀ (fuel : Nat) (dfs : Dfs) (fin : Finset Nat) (forder : List Nat),
      sccP1Measure g dfs fin < fuel →
      (sccP1go g fuel dfs fin forder).1.stack = [] := by
  intro fuel
  induction fuel with
  | zero => intro dfs fin forder h; cases h
  | succ n ih =>
    intro dfs fin forder hm
    cases hst : dfs.stack with
    | nil => simp only [sccP1go, hst]
    | cons nx rest =>
      simp only [sccP1go, hst]
      by_cases hmem : nx ∈ fin
      · rw [if_pos hmem]
        refine ih ⟨rest, dfs.discovered⟩ fin (forder ++ [nx]) ?_
        show ((gUniv g ∪ rest.toFinset) \ fin).card
          + ((gUniv g ∪ rest.toFinset) \ dfs.discovered).card + rest.length < n
        have hsub1 : (gUniv g ∪ rest.toFinset) \ fin ⊆
            (gUniv g ∪ (nx :: rest).toFinset) \ fin := by
          intro y hy
          obtain ⟨hy1, hy2⟩ := Finset.mem_sdiff.mp hy
          refine Finset.mem_sdiff.mpr ⟨?_, hy2⟩
          rcases Finset.mem_union.mp hy1 with h | h
          · exact Finset.mem_union_left _ h
          · exact Finset.mem_union_right _ (by
              rw [List.mem_toFinset] at h ⊢
              exact List.mem_cons_of_mem _ h)
        have hsub2 : (gUniv g ∪ rest.toFinset) \ dfs.discovered ⊆
            (gUniv g ∪ (nx :: rest).toFinset) \ dfs.discovered := by
          intro y hy
          obtain ⟨hy1, hy2⟩ := Finset.mem_sdiff.mp hy
          refine Finset.mem_sdiff.mpr ⟨?_, hy2⟩
          rcases Finset.mem_union.mp hy1 with h | h
          · exact Finset.mem_union_left _ h
          · exact Finset.mem_union_right _ (by
              rw [List.mem_toFinset] at h ⊢
              exact List.mem_cons_of_mem _ h)
        have hc1 := Finset.card_le_card hsub1
        have hc2 := Finset.card_le_card hsub2
        unfold sccP1Measure at hm
        rw [hst] at hm
        simp only [List.length_cons] at hm
        omega
      · rw [if_neg hmem]
        rw [Dfs.next_cons rfl]
        obtain ⟨fl, h1, h2, h3, h4⟩ :=
          foldl_visitPush_spec (revNbrs g nx) dfs.discovered (nx :: rest)
        refine ih _ (insert nx fin) forder ?_
        have hflU : ∀ y ∈ fl, y ∈ gUniv g :=
          fun y hy => revNbrs_subset_gUniv g nx y ((h4 y).mp hy).1
        have hnxA : nx ∈ (gUniv g ∪ (nx :: rest).toFinset) \ fin :=
          Finset.mem_sdiff.mpr ⟨Finset.mem_union_right _
            (List.mem_toFinset.mpr (List.mem_cons_self _ _)), hmem⟩
        have hc1 : ((gUniv g ∪ (fl ++ nx :: rest).toFinset) \ insert nx fin).card + 1
            ≤ ((gUniv g ∪ (nx :: rest).toFinset) \ fin).card := by
          have hsub : (gUniv g ∪ (fl ++ nx :: rest).toFinset) \ insert nx fin ⊆
              ((gUniv g ∪ (nx :: rest).toFinset) \ fin).erase nx := by
            intro y hy
            obtain ⟨hy1, hy2⟩ := Finset.mem_sdiff.mp hy
            have hyne : y ≠ nx := fun h => hy2 (h ▸ Finset.mem_insert_self _ _)
            refine Finset.mem_erase.mpr ⟨hyne, Finset.mem_sdiff.mpr
              ⟨?_, fun h => hy2 (Finset.mem_insert_of_mem h)⟩⟩
            rcases Finset.mem_union.mp hy1 with h | h
            · exact Finset.mem_union_left _ h
            · rw [List.mem_toFinset, List.mem_append] at h
              rcases h with h | h
              · exact Finset.mem_union_left _ (hflU y h)
              · exact Finset.mem_union_right _ (List.mem_toFinset.mpr h)
          calc ((gUniv g ∪ (fl ++ nx :: rest).toFinset) \ insert nx fin).card + 1
              ≤ (((gUniv g ∪ (nx :: rest).toFinset) \ fin).erase nx).card + 1 :=
                Nat.add_le_add_right (Finset.card_le_card hsub) 1
            _ = ((gUniv g ∪ (nx :: rest).toFinset) \ fin).card := by
                rw [Finset.card_erase_of_mem hnxA]
                have := Finset.card_pos.mpr ⟨nx, hnxA⟩
                omega
        have hc2 : ((gUniv g ∪ (fl ++ nx :: rest).toFinset) \
              (dfs.discovered ∪ (revNbrs g nx).toFinset)).card + fl.length
            ≤ ((gUniv g ∪ (nx :: rest).toFinset) \ dfs.discovered).card := by
          have hsub : ((gUniv g ∪ (fl ++ nx :: rest).toFinset) \
              (dfs.discovered ∪ (revNbrs g nx).toFinset)) ∪ fl.toFinset ⊆
              (gUniv g ∪ (nx :: rest).toFinset) \ dfs.discovered := by
            intro y hy
            rcases Finset.mem_union.mp hy with hy | hy
            · obtain ⟨hy1, hy2⟩ := Finset.mem_sdiff.mp hy
              refine Finset.mem_sdiff.mpr ⟨?_,
                fun h => hy2 (Finset.mem_union_left _ h)⟩
              rcases Finset.mem_union.mp hy1 with h | h
              · exact Finset.mem_union_left _ h
              · rw [List.mem_toFinset, List.mem_append] at h
                rcases h with h | h
                · exact Finset.mem_union_left _ (hflU y h)
                · exact Finset.mem_union_right _ (List.mem_toFinset.mpr h)
            · have hyfl := List.mem_toFinset.mp hy
              refine Finset.mem_sdiff.mpr
                ⟨Finset.mem_union_left _ (hflU y hyfl), ((h4 y).mp hyfl).2⟩
          have hdisj : Disjoint ((gUniv g ∪ (fl ++ nx :: rest).toFinset) \
              (dfs.discovered ∪ (revNbrs g nx).toFinset)) fl.toFinset := by
            rw [Finset.disjoint_right]
            intro y hy hmem2
            have hyfl := List.mem_toFinset.mp hy
            exact (Finset.mem_sdiff.mp hmem2).2
              (Finset.mem_union_right _ (List.mem_toFinset.mpr ((h4 y).mp hyfl).1))
          have hcard := Finset.card_le_card hsub
          rw [Finset.card_union_of_disjoint hdisj,
            List.toFinset_card_of_nodup h3] at hcard
          exact hcard
        unfold sccP1Measure at hm ⊢
        rw [hst] at hm
        show ((gUniv g ∪ (((revNbrs g nx).foldl visitPush
            (dfs.discovered, nx :: rest)).2).toFinset) \ insert nx fin).card
          + ((gUniv g ∪ (((revNbrs g nx).foldl visitPush
            (dfs.discovered, nx :: rest)).2).toFinset) \
            ((revNbrs g nx).foldl visitPush (dfs.discovered, nx :: rest)).1).card
          + (((revNbrs g nx).foldl visitPush (dfs.discovered, nx :: rest)).2).length
          < n
        rw [h1, h2]
        simp only [List.length_append, List.length_cons] at hm ⊢
        omega

lemma sccP1Outer_spec (g : SGraph) (hwf : g.WF) :
    ∀ (is : List Nat) (st : Dfs × Finset Nat × List Nat),
      (∀ i ∈ is, i < g.n) →
      st.1.stack = [] →
      (∀ x ∈ st.1.discovered, x ∈ st.2.2) →
      (∀ x ∈ st.2.2, x < g.n) →
      (sccP1Outer g is st).1.stack = [] ∧
      (∀ x ∈ (sccP1Outer g is st).1.discovered, x ∈ (sccP1Outer g is st).2.2) ∧
      (∀ x ∈ (sccP1Outer g is st).2.2, x < g.n) ∧
      (∀ i ∈ is, i ∈ (sccP1Outer g is st).2.2) ∧
      (∀ x ∈ st.2.2, x ∈ (sccP1Outer g is st).2.2) := by
  intro is
  induction is with
  | nil =>
    intro st _ h1 h2 h3
    exact ⟨h1, h2, h3, fun i hi => absurd hi (List.not_mem_nil i),
      fun x hx => hx⟩
  | cons i rest ih =>
    intro st his h1 h2 h3
    rw [sccP1Outer]
    by_cases hd : i ∈ st.1.discovered
    · rw [if_pos hd]
      obtain ⟨c1, c2, c3, c4, c5⟩ := ih st
        (fun j hj => his j (List.mem_cons_of_mem _ hj)) h1 h2 h3
      refine ⟨c1, c2, c3, ?_, c5⟩
      intro j hj
      rcases List.mem_cons.mp hj with rfl | hj
      · exact c5 j (h2 j hd)
      · exact c4 j hj
    · rw [if_neg hd]
      have hin : i < g.n := his i (List.mem_cons_self _ _)
      set dfs2 := st.1.move_to i with hdfs2
      set st2 := sccP1go g (sccP1Measure g dfs2 st.2.1 + 1) dfs2 st.2.1 st.2.2
        with hst2
      have hdrain : st2.1.stack = [] :=
        sccP1go_drain g _ dfs2 st.2.1 st.2.2 (Nat.lt_succ_self _)
      have hcover0 : ∀ x ∈ dfs2.discovered, x ∈ st.2.2 ∨ x ∈ dfs2.stack := by
        intro x hx
        rw [hdfs2, Dfs.move_to] at hx ⊢
        rcases Finset.mem_insert.mp hx with rfl | hx
        · exact Or.inr (List.mem_cons_self _ _)
        · exact Or.inl (h2 x hx)
      have hcover : ∀ x ∈ st2.1.discovered, x ∈ st2.2.2 := by
        intro x hx
        rcases sccP1go_cover g _ dfs2 st.2.1 st.2.2 hcover0 x hx with h | h
        · exact h
        · rw [hdrain] at h
          cases h
      have hrange0 : ∀ x ∈ dfs2.stack, x < g.n := by
        intro x hx
        rw [hdfs2, Dfs.move_to] at hx
        rcases List.mem_cons.mp hx with rfl | hx
        · exact hin
        · cases hx
      have hrange : ∀ x ∈ st2.2.2, x < g.n :=
        (sccP1go_range g hwf _ dfs2 st.2.1 st.2.2 hrange0 h3).1
      obtain ⟨c1, c2, c3, c4, c5⟩ := ih st2
        (fun j hj => his j (List.mem_cons_of_mem _ hj)) hdrain hcover hrange
      refine ⟨c1, c2, c3, ?_, ?_⟩
      · intro j hj
        rcases List.mem_cons.mp hj with rfl | hj
        · refine c5 j (hcover j ?_)
          have hmono :=
            (sccP1go_mono g (sccP1Measure g dfs2 st.2.1 + 1) dfs2 st.2.1 st.2.2).1
          refine hmono ?_
          rw [hdfs2, Dfs.move_to]
          exact Finset.mem_insert_self _ _
        · exact c4 j hj
      · intro x hx
        exact c5 x
          ((sccP1go_mono g (sccP1Measure g dfs2 st.2.1 + 1) dfs2 st.2.1 st.2.2).2 x hx)

lemma sccP1_spec (g : SGraph) (hwf : g.WF) :
    (∀ x, x < g.n → x ∈ (sccP1 g).2.2) ∧ (∀ x ∈ (sccP1 g).2.2, x < g.n) := by
  have h := sccP1Outer_spec g hwf (List.range g.n) (Dfs.empty g, g.visit_map, [])
    (fun i hi => List.mem_range.mp hi) rfl
    (fun x hx => absurd hx (Finset.not_mem_empty x))
    (fun x hx => absurd hx (List.not_mem_nil x))
  exact ⟨fun x hx => h.2.2.2.1 x (List.mem_range.mpr hx), h.2.2.1⟩

/-- One phase-2 group walk: move the Dfs (empty stack, accumulated map) to
the fresh node i and drain it. -/
def sccGroupRun (g : SGraph) (disc : Finset Nat) (i : Nat) : List Nat × Dfs :=
  dfsRun g.neighbors (dfsMeasure (gUniv g) (Dfs.move_to ⟨[], disc⟩ i) + 1)
    (Dfs.move_to ⟨[], disc⟩ i)

lemma sccP2_skip {g : SGraph} {i : Nat} {disc : Finset Nat} (h : i ∈ disc)
    (rest : List Nat) : sccP2 g (i :: rest) disc = sccP2 g rest disc := by
  rw [sccP2, if_pos h]

lemma sccP2_fresh {g : SGraph} {i : Nat} {disc : Finset Nat} (h : i ∉ disc)
    (rest : List Nat) :
    sccP2 g (i :: rest) disc =
      ((sccGroupRun g disc i).1 ::
          (sccP2 g rest (sccGroupRun g disc i).2.discovered).1,
        (sccP2 g rest (sccGroupRun g disc i).2.discovered).2) := by
  rw [sccP2, if_neg h]
  rfl

lemma sccGroupRun_spec (g : SGraph) (disc : Finset Nat) (i : Nat)
    (hi : i ∉ disc) :
    i ∈ (sccGroupRun g disc i).1 ∧
    (sccGroupRun g disc i).1.Nodup ∧
    (∀ x ∈ (sccGroupRun g disc i).1, x = i ∨ x ∉ disc) ∧
    (sccGroupRun g disc i).2.discovered = disc ∪ (sccGroupRun g disc i).1.toFinset := by
  have hstack : (Dfs.move_to ⟨[], disc⟩ i).stack = [i] := rfl
  have hdisc : (Dfs.move_to ⟨[], disc⟩ i).discovered = insert i disc := rfl
  have hJ1 : ∀ x ∈ (Dfs.move_to ⟨[], disc⟩ i).stack,
      x ∈ (Dfs.move_to ⟨[], disc⟩ i).discovered := by
    intro x hx
    rw [hstack] at hx
    rw [hdisc]
    rcases List.mem_cons.mp hx with rfl | hx
    · exact Finset.mem_insert_self _ _
    · cases hx
  have hdrain : (sccGroupRun g disc i).2.stack = [] :=
    dfsRun_drain g.neighbors (gUniv g) (fun x => neighbors_subset_gUniv g x) _ _
      (Nat.lt_succ_self _)
  have hmem : i ∈ (sccGroupRun g disc i).1 := by
    refine dfsRun_all g.neighbors _ _ hdrain i ?_
    rw [hstack]
    exact List.mem_cons_self _ _
  have hnodup : (sccGroupRun g disc i).1.Nodup := by
    refine dfsRun_nodup g.neighbors _ _ hJ1 ?_
    rw [hstack]
    exact List.nodup_singleton _
  have hfresh : ∀ x ∈ (sccGroupRun g disc i).1, x = i ∨ x ∉ disc := by
    intro x hx
    rcases dfsRun_uni g.neighbors _ _ hJ1 x hx with h | h
    · rw [hstack] at h
      rcases List.mem_cons.mp h with rfl | h
      · exact Or.inl rfl
      · cases h
    · rw [hdisc] at h
      exact Or.inr (fun hc => h (Finset.mem_insert_of_mem hc))
  refine ⟨hmem, hnodup, hfresh, ?_⟩
  have hd := dfsRun_disc g.neighbors _ _ hJ1 hdrain
  rw [hdisc] at hd
  rw [show (sccGroupRun g disc i).2.discovered
    = insert i disc ∪ (sccGroupRun g disc i).1.toFinset from hd]
  ext y
  simp only [Finset.mem_union, Finset.mem_insert, List.mem_toFinset]
  constructor
  · rintro ((rfl | hy) | hy)
    · exact Or.inr hmem
    · exact Or.inl hy
    · exact Or.inr hy
  · rintro (hy | hy)
    · exact Or.inl (Or.inr hy)
    · exact Or.inr hy

lemma sccGroupRun_range (g : SGraph) (hwf : g.WF) (disc : Finset Nat) (i : Nat)
    (hi : i < g.n) : ∀ x ∈ (sccGroupRun g disc i).1, x < g.n := by
  refine dfsRun_sound g.neighbors (fun x => x < g.n) ?_ _ _ ?_
  · intro a b ha hb
    exact neighbors_lt_of_wf hwf a b hb
  · intro x hx
    rcases List.mem_cons.mp hx with rfl | hx
    · exact hi
    · cases hx

lemma sccP2_groups_wf (g : SGraph) (hwf : g.WF) :
    ∀ (order : List Nat) (disc : Finset Nat),
      (∀ i ∈ order, i < g.n) →
      ∀ grp ∈ (sccP2 g order disc).1, grp.Nodup ∧ ∀ x ∈ grp, x < g.n := by
  intro order
  induction order with
  | nil => intro disc _ grp hgrp; cases hgrp
  | cons i rest ih =>
    intro disc hord grp hgrp
    by_cases hd : i ∈ disc
    · rw [sccP2_skip hd] at hgrp
      exact ih disc (fun j hj => hord j (List.mem_cons_of_mem _ hj)) grp hgrp
    · rw [sccP2_fresh hd] at hgrp
      rcases List.mem_cons.mp hgrp with rfl | hgrp
      · exact ⟨(sccGroupRun_spec g disc i hd).2.1,
          sccGroupRun_range g hwf disc i (hord i (List.mem_cons_self _ _))⟩
      · exact ih _ (fun j hj => hord j (List.mem_cons_of_mem _ hj)) grp hgrp

lemma sccP2_disc_mono (g : SGraph) :
    ∀ (order : List Nat) (disc : Finset Nat), disc ⊆ (sccP2 g order disc).2 := by
  intro order
  induction order with
  | nil => intro disc; exact Finset.Subset.refl _
  | cons i rest ih =>
    intro disc
    by_cases hd : i ∈ disc
    · rw [sccP2_skip hd]
      exact ih disc
    · rw [sccP2_fresh hd]
      refine Finset.Subset.trans ?_ (ih (sccGroupRun g disc i).2.discovered)
      rw [(sccGroupRun_spec g disc i hd).2.2.2]
      exact Finset.subset_union_left

lemma sccP2_covers (g : SGraph) :
    ∀ (order : List Nat) (disc : Finset Nat),
      ∀ i ∈ order, i ∈ (sccP2 g order disc).2 := by
  intro order
  induction order with
  | nil => intro disc i hi; cases hi
  | cons i rest ih =>
    intro disc j hj
    by_cases hd : i ∈ disc
    · rw [sccP2_skip hd]
      rcases List.mem_cons.mp hj with rfl | hj
      · exact sccP2_disc_mono g rest disc hd
      · exact ih disc j hj
    · rw [sccP2_fresh hd]
      rcases List.mem_cons.mp hj with rfl | hj
      · refine sccP2_disc_mono g rest _ ?_
        rw [(sccGroupRun_spec g disc j hd).2.2.2]
        exact Finset.mem_union_right _
          (List.mem_toFinset.mpr (sccGroupRun_spec g disc j hd).1)
      · exact ih _ j hj

lemma sccP2_count_zero (g : SGraph) :
    ∀ (order : List Nat) (disc : Finset Nat) (x : Nat), x ∈ disc →
      (sccP2 g order disc).1.countP (fun grp => decide (x ∈ grp)) = 0 := by
  intro order
  induction order with
  | nil => intro disc x _; rfl
  | cons i rest ih =>
    intro disc x hx
    by_cases hd : i ∈ disc
    · rw [sccP2_skip hd]
      exact ih disc x hx
    · rw [sccP2_fresh hd]
      rw [List.countP_cons]
      have hnot : ¬ x ∈ (sccGroupRun g disc i).1 := by
        intro hmem
        rcases (sccGroupRun_spec g disc i hd).2.2.1 x hmem with rfl | h
        · exact hd hx
        · exact h hx
      rw [ih _ x (by
        rw [(sccGroupRun_spec g disc i hd).2.2.2]
        exact Finset.mem_union_left _ hx)]
      simp [hnot]

lemma sccP2_count_one (g : SGraph) :
    ∀ (order : List Nat) (disc : Finset Nat) (x : Nat), x ∉ disc →
      (sccP2 g order disc).1.countP (fun grp => decide (x ∈ grp))
        = if x ∈ (sccP2 g order disc).2 then 1 else 0 := by
  intro order
  induction order with
  | nil =>
    intro disc x hx
    show 0 = if x ∈ disc then 1 else 0
    rw [if_neg hx]
  | cons i rest ih =>
    intro disc x hx
    by_cases hd : i ∈ disc
    · rw [sccP2_skip hd]
      exact ih disc x hx
    · rw [sccP2_fresh hd]
      rw [List.countP_cons]
      obtain ⟨hmem, hnodup, hfresh, hdisc2⟩ := sccGroupRun_spec g disc i hd
      by_cases hxg : x ∈ (sccGroupRun g disc i).1
      · have hx2 : x ∈ (sccGroupRun g disc i).2.discovered := by
          rw [hdisc2]
          exact Finset.mem_union_right _ (List.mem_toFinset.mpr hxg)
        rw [sccP2_count_zero g rest _ x hx2]
        have hxfin : x ∈ (sccP2 g rest (sccGroupRun g disc i).2.discovered).2 :=
          sccP2_disc_mono g rest _ hx2
        rw [if_pos hxfin]
        simp [hxg]
      · have hx2 : x ∉ (sccGroupRun g disc i).2.discovered := by
          rw [hdisc2]
          intro hc
          rcases Finset.mem_union.mp hc with hc | hc
          · exact hx hc
          · exact hxg (List.mem_toFinset.mp hc)
        rw [ih _ x hx2]
        simp [hxg]

/-- The groups of scc partition the node set: every node of the graph lies
in exactly one group, each group has no duplicates, and groups only contain
nodes of the graph. -/
theorem scc_partition (g : SGraph) (hwf : g.WF) :
    (∀ grp ∈ scc g, grp.Nodup ∧ ∀ x ∈ grp, x < g.n) ∧
    (∀ x, x < g.n → (scc g).countP (fun grp => decide (x ∈ grp)) = 1) := by
  have hford := sccP1_spec g hwf
  have hrange : ∀ i ∈ (sccP1 g).2.2.reverse, i < g.n := by
    intro i hi
    exact hford.2 i (List.mem_reverse.mp hi)
  constructor
  · intro grp hgrp
    exact sccP2_groups_wf g hwf _ ∅ hrange grp hgrp
  · intro x hx
    have hxord : x ∈ (sccP1 g).2.2.reverse :=
      List.mem_reverse.mpr (hford.1 x hx)
    have hxfin : x ∈ (sccP2 g (sccP1 g).2.2.reverse ∅).2 :=
      sccP2_covers g _ ∅ x hxord
    have := sccP2_count_one g (sccP1 g).2.2.reverse ∅ x (Finset.not_mem_empty x)
    rw [if_pos hxfin] at this
    exact this

lemma bfsRun_mono (nbr : Nat → List Nat) :
    ∀ (fuel : Nat) (b : Bfs), b.discovered ⊆ (bfsRun nbr fuel b).2.discovered := by
  intro fuel
  induction fuel with
  | zero => intro b; exact Finset.Subset.refl _
  | succ n ih =>
    intro b
    cases hst : b.stack with
    | nil => rw [bfsRun_stack_nil hst]
    | cons node rest =>
      rw [bfsRun, Bfs.step_cons hst]
      obtain ⟨fl, h1, h2, h3, h4⟩ := foldl_visitQueue_spec (nbr node) b.discovered rest
      refine Finset.Subset.trans ?_ (ih _)
      simp only [h1]
      exact Finset.subset_union_left

/-! ## The claims -/

/-- C1: for every well-formed directed graph, if the graph is acyclic then
toposort returns a permutation of all nodes in which every edge's source
precedes its target; and the returned sequence has length node_count exactly
when the graph is acyclic. -/
theorem claim_C1 (g : SGraph) (hwf : g.WF) :
    (¬ CyclicDir g →
      (toposort g).Perm (List.range g.node_count) ∧
        ∀ u v, adj g u v →
          (toposort g).indexOf u < (toposort g).indexOf v) ∧
    ((toposort g).length = g.node_count ↔ ¬ CyclicDir g) := by
  constructor
  · intro hacyc
    refine ⟨toposort_perm g hwf hacyc, ?_⟩
    intro u v huv
    have hv : v ∈ toposort g := toposort_complete g hwf hacyc v (hwf _ huv).2
    exact (toposort_edge_indexOf g u v huv hv).2
  · exact toposort_length_iff g hwf

theorem claim_C1_witness :
    ((toposort ⟨3, [(0, 1), (1, 2)]⟩).length
        = SGraph.node_count ⟨3, [(0, 1), (1, 2)]⟩) ↔
      ¬ CyclicDir ⟨3, [(0, 1), (1, 2)]⟩ :=
  (claim_C1 ⟨3, [(0, 1), (1, 2)]⟩ (by decide)).2

/-- C2: for every well-formed directed graph, is_cyclic_directed holds
exactly when the graph has a directed cycle; equivalently, the worklist pass
emits strictly fewer nodes than node_count exactly when the graph is
cyclic. -/
theorem claim_C2 (g : SGraph) (hwf : g.WF) :
    (is_cyclic_directed g = true ↔ CyclicDir g) ∧
    ((toposort g).length < g.node_count ↔ CyclicDir g) := by
  have hle := toposort_length_le g hwf
  have hiff := toposort_length_iff g hwf
  have hlt : (toposort g).length < g.n ↔ CyclicDir g := by
    constructor
    · intro h
      by_contra hc
      rw [hiff.mpr hc] at h
      exact absurd h (lt_irrefl _)
    · intro h
      have hne : ¬ (toposort g).length = g.n := fun he => (hiff.mp he) h
      omega
  refine ⟨?_, hlt⟩
  rw [is_cyclic_directed, decide_eq_true_eq]
  constructor
  · intro h
    by_contra hc
    exact h (hiff.mpr hc)
  · exact fun h he => (hiff.mp he) h

theorem claim_C2_witness :
    is_cyclic_directed ⟨3, [(0, 1), (1, 2), (2, 0)]⟩ = true ↔
      CyclicDir ⟨3, [(0, 1), (1, 2), (2, 0)]⟩ :=
  (claim_C2 ⟨3, [(0, 1), (1, 2), (2, 0)]⟩ (by decide)).1

/-- C3: for every well-formed directed graph, the groups returned by scc
partition the node set exactly: each group is duplicate-free and contains
only nodes of the graph, and every node of the graph lies in exactly one
group; on the 3-cycle scc returns one group of size 3, and on the chain
0→1→2 it returns three singleton groups. -/
theorem claim_C3 (g : SGraph) (hwf : g.WF) :
    ((∀ grp ∈ scc g, grp.Nodup ∧ ∀ x ∈ grp, x < g.n) ∧
      ∀ x, x < g.n → (scc g).countP (fun grp => decide (x ∈ grp)) = 1) ∧
    scc ⟨3, [(0, 1), (1, 2), (2, 0)]⟩ = [[0, 1, 2]] ∧
    scc ⟨3, [(0, 1), (1, 2)]⟩ = [[2], [1], [0]] := by
  refine ⟨scc_partition g hwf, ?_, ?_⟩ <;> decide

theorem claim_C3_witness : scc ⟨3, [(0, 1), (1, 2), (2, 0)]⟩ = [[0, 1, 2]] :=
  (claim_C3 ⟨0, []⟩ (by decide)).2.1

/-- C4: for every well-formed weighted graph, min_spanning_tree keeps the
node list — same identifiers in the same order — selects exactly V − C
edges, where C is the number of connected components of the graph viewed as
undirected (stated subtraction-free), and flipping the direction of any of
the input's edges yields the same selected edge set up to those flips. -/
theorem claim_C4 (w : WGraph) (hwf : w.WF) :
    (min_spanning_tree w).nodes = w.nodes ∧
    (min_spanning_tree w).edges.length + componentCount w.toS = w.nodes.length ∧
    ∀ w2 : WGraph, w2.nodes = w.nodes → List.Forall₂ flipE w.edges w2.edges →
      List.Forall₂ flipE (min_spanning_tree w).edges (min_spanning_tree w2).edges :=
  ⟨min_spanning_tree_nodes w, msf_edge_count w hwf,
    fun w2 hn hE => msf_flip w w2 hwf hn hE⟩

theorem claim_C4_witness :
    (min_spanning_tree
        ⟨[10, 20, 30, 40], [(0, 1, 5), (1, 2, 3), (2, 3, 7), (3, 0, 1)]⟩).edges.length
      + componentCount
        (WGraph.toS ⟨[10, 20, 30, 40], [(0, 1, 5), (1, 2, 3), (2, 3, 7), (3, 0, 1)]⟩)
      = 4 :=
  (claim_C4 ⟨[10, 20, 30, 40], [(0, 1, 5), (1, 2, 3), (2, 3, 7), (3, 0, 1)]⟩
    (by decide)).2.1

/-- C5: for every graph, is_cyclic_undirected unions the endpoint indices
of the edges in order and holds exactly when some edge — after the unions of
the edges before it — has both endpoints in the same class (a self-loop
included); the 3-node path is reported acyclic, the triangle cyclic, and a
single self-loop cyclic. -/
theorem claim_C5 (g : SGraph) :
    (is_cyclic_undirected g = true ↔
      ∃ (pre : List (Nat × Nat)) (e : Nat × Nat) (post : List (Nat × Nat)),
        g.edges = pre ++ e :: post ∧
        (unionPairs (UnionFind.new g.node_bound) pre).find e.1
          = (unionPairs (UnionFind.new g.node_bound) pre).find e.2) ∧
    is_cyclic_undirected ⟨3, [(0, 1), (1, 2)]⟩ = false ∧
    is_cyclic_undirected ⟨3, [(0, 1), (1, 2), (2, 0)]⟩ = true ∧
    is_cyclic_undirected ⟨1, [(0, 0)]⟩ = true := by
  refine ⟨icuGo_iff g.edges (UnionFind.new g.node_bound), ?_, ?_, ?_⟩ <;> decide

/-- C6: for every well-formed graph, connected_components equals the number
of distinct representatives of the size-node_bound union-find after unioning
the endpoints of every edge ignoring direction; it equals node_count when
there are no edges, and equals 1 when the graph is nonempty and connected as
an undirected graph. -/
theorem claim_C6 (g : SGraph) (hwf : g.WF) :
    connected_components g =
      ((Finset.range g.node_bound).image
        (unionPairs (UnionFind.new g.node_bound) g.edges).find).card ∧
    (g.edges = [] → connected_components g = g.node_count) ∧
    (0 < g.n → (∀ x y, x < g.n → y < g.n → ReachU g x y) →
      connected_components g = 1) := by
  have hlen : (unionPairs (UnionFind.new g.n) g.edges).labels.length = g.n := by
    rw [unionPairs_length, UnionFind.new_length]
  have hcc : connected_components g =
      ((Finset.range g.n).image (unionPairs (UnionFind.new g.n) g.edges).find).card := by
    rw [connected_components_eq_card]
    rw [show (unionPairs (UnionFind.new g.node_bound) g.edges).into_labeling
      = (unionPairs (UnionFind.new g.n) g.edges).labels from rfl]
    rw [labels_toFinset_eq_image _ g.n hlen]
  refine ⟨hcc, ?_, ?_⟩
  · intro hE
    rw [hcc, hE]
    rw [show unionPairs (UnionFind.new g.n) [] = UnionFind.new g.n from rfl]
    have himg : (Finset.range g.n).image (UnionFind.new g.n).find
        = Finset.range g.n := by
      ext x
      simp only [Finset.mem_image, Finset.mem_range]
      constructor
      · rintro ⟨i, hi, rfl⟩
        rw [UnionFind.new_find hi]
        exact hi
      · intro hx
        exact ⟨x, hx, UnionFind.new_find hx⟩
    rw [himg, Finset.card_range]
    rfl
  · intro hpos hconn
    have h2 : connected_components g = componentCount g :=
      hcc.trans (componentCount_eq_card_image g hwf).symm
    rw [h2, componentCount]
    have hfilter : (Finset.range g.n).filter
        (fun i => ∀ j ∈ Finset.range i, i ∉ reachSet g j) = {0} := by
      ext i
      simp only [Finset.mem_filter, Finset.mem_range, Finset.mem_singleton]
      constructor
      · rintro ⟨hin, hleast⟩
        by_contra hne
        have h0i : 0 < i := Nat.pos_of_ne_zero hne
        exact hleast 0 h0i
          ((mem_reachSet_iff g hwf hpos i).mpr (hconn 0 i hpos hin))
      · rintro rfl
        refine ⟨hpos, ?_⟩
        intro j hj
        exact absurd hj (Nat.not_lt_zero j)
    rw [hfilter, Finset.card_singleton]

theorem claim_C6_witness : connected_components ⟨2, [(0, 1)]⟩ = 1 := by
  refine (claim_C6 ⟨2, [(0, 1)]⟩ (by decide)).2.2 (by decide) ?_
  intro x y hx hy
  interval_cases x <;> interval_cases y
  · exact Relation.ReflTransGen.refl
  · exact Relation.ReflTransGen.single (Or.inl (by decide))
  · exact Relation.ReflTransGen.single (Or.inr (by decide))
  · exact Relation.ReflTransGen.refl

/-- C7: for every graph and start node of the graph, the sequence of nodes
produced by repeated next calls on a freshly constructed Dfs (resp. Bfs)
from that start contains a node exactly when it is reachable from the start,
never contains a node twice, and the discovered set grows monotonically
across any number of next calls from any state. -/
theorem claim_C7 (g : SGraph) (s : Nat) (_hs : s < g.n) :
    ((∀ x, x ∈ dfsTraverse g s ↔ Reach g s x) ∧ (dfsTraverse g s).Nodup ∧
      ∀ fuel d, d.discovered ⊆ (dfsRun g.neighbors fuel d).2.discovered) ∧
    ((∀ x, x ∈ bfsTraverse g s ↔ Reach g s x) ∧ (bfsTraverse g s).Nodup ∧
      ∀ fuel b, b.discovered ⊆ (bfsRun g.neighbors fuel b).2.discovered) :=
  ⟨⟨fun x => dfsTraverse_mem_iff g s x, dfsTraverse_nodup g s,
      fun fuel d => dfsRun_mono g.neighbors fuel d⟩,
    fun x => bfsTraverse_mem_iff g s x, bfsTraverse_nodup g s,
      fun fuel b => bfsRun_mono g.neighbors fuel b⟩

theorem claim_C7_witness : (dfsTraverse ⟨3, [(0, 1), (1, 2)]⟩ 0).Nodup :=
  (claim_C7 ⟨3, [(0, 1), (1, 2)]⟩ 0 (by decide)).1.2.1

/-- C8: for every graph, the Reversed adapter enumerates directed neighbors
and externals with the direction flipped, plain neighbors as the wrapped
graph's incoming neighbors, and constructs and resets visit maps exactly as
the wrapped graph does. -/
theorem claim_C8 (g : SGraph) :
    (∀ x d, (Reversed.mk g).neighbors_directed x d
        = g.neighbors_directed x d.opposite) ∧
    (∀ x, (Reversed.mk g).neighbors x = g.neighbors_directed x .Incoming) ∧
    (∀ d, (Reversed.mk g).externals d = g.externals d.opposite) ∧
    (Reversed.mk g).visit_map = g.visit_map ∧
    ∀ m, (Reversed.mk g).reset_map m = g.reset_map m :=
  ⟨fun _ _ => rfl, fun _ => rfl, fun _ => rfl, rfl, fun _ => rfl⟩

/-- C9: for every Dfs state and start node, move_to leaves the stack holding
exactly the start node and the discovered set equal to the prior discovered
set with the start inserted, so every previously discovered node stays
discovered. -/
theorem claim_C9 (d : Dfs) (start : Nat) :
    (d.move_to start).stack = [start] ∧
    (d.move_to start).discovered = insert start d.discovered ∧
    ∀ x ∈ d.discovered, x ∈ (d.move_to start).discovered :=
  ⟨rfl, rfl, fun _ hx => Finset.mem_insert_of_mem hx⟩

/-- C10: for every directed graph in which every node has an incoming edge,
toposort returns the empty sequence, and Topo::new builds an empty worklist
so the first next call returns none. -/
theorem claim_C10 (g : SGraph) (hno : ∀ v, v < g.n → ∃ u, adj g u v) :
    toposort g = [] ∧ (Topo.new g).tovisit = [] ∧
      Topo.next g (Topo.new g) = none := by
  have hext : g.externals .Incoming = [] := by
    rw [List.eq_nil_iff_forall_not_mem]
    intro x hx
    obtain ⟨hxn, hnoinc⟩ := (mem_externals_incoming_iff g x).mp hx
    obtain ⟨u, hu⟩ := hno x hxn
    exact hnoinc u hu
  have htv : (Topo.new g).tovisit = [] := by
    show (g.externals .Incoming).reverse ++ (Topo.empty g).tovisit = []
    rw [hext]
    rfl
  refine ⟨?_, htv, ?_⟩
  · rw [toposort, hext]
    cases h : topoFuel g
    · rfl
    · rfl
  · rw [Topo.next, htv]
    rfl

theorem claim_C10_witness : toposort ⟨2, [(0, 1), (1, 0)]⟩ = [] := by
  refine (claim_C10 ⟨2, [(0, 1), (1, 0)]⟩ ?_).1
  intro v hv
  interval_cases v
  · exact ⟨1, by decide⟩
  · exact ⟨0, by decide⟩

end Petgraph
